import Mathlib

/-!
Verification development for the `vercel-anti-bot` deobfuscation core.

The Rust sources under `src/` are shallowly embedded below:

* machine integers are `Nat` with explicit reduction modulo `2 ^ 32`
  (release-mode wrapping semantics); operations that panic in every
  build profile (division or remainder by zero) are modelled with an
  explicit `RustResult.panics` value;
* `f64` values are modelled as `Option ℚ` (`none` standing for NaN);
  the IEEE-754 constants of `std::f64::consts` are embedded as the
  exact dyadic rationals of the corresponding `f64` bit patterns;
  transcendental `f64` operations, which have no exact rational
  semantics, are abstract fields of the `FloatOps` parameter record;
* the SWC AST is embedded as a mutual inductive family restricted to
  the node shapes the transformation passes inspect; each visitor is
  translated method by method, with the same child-visiting order as
  the `VisitMut` implementations in the source.
-/

set_option maxRecDepth 4000

/-- A symbol (swc `JsWord`). -/
abbrev JsWord := String

/-- A syntax context produced by the resolver (swc `SyntaxContext`).
Larger values are deeper scopes, matching the `Ord` use in the source. -/
abbrev Ctxt := Nat

/-- A binding identity (swc `Id`): symbol paired with syntax context. -/
abbrev Idn := JsWord × Ctxt

/-- A source span (swc `Span`): a position together with the syntax
context stored inside the span.  `Span.dummy` models `DUMMY_SP`. -/
structure Span where
  pos : Ctxt
  ctxt : Ctxt
deriving DecidableEq, Repr

/-- The dummy span (`DUMMY_SP`), produced by `Take::take` / `Span::dummy`. -/
def Span.dummy : Span := ⟨0, 0⟩

/-- Whether a span is the dummy span (`Span::is_dummy`). -/
def Span.isDummy (s : Span) : Bool := s = Span.dummy

/-- Model of Rust `f64`: `none` is NaN, `some q` a finite value given by
the exact rational of its bit pattern.  The challenges never exercise
infinities or negative zero, so those are not distinguished here. -/
abbrev F64 := Option ℚ

/-- NaN (`f64::NAN`). -/
def F64.nan : F64 := none

/-- A finite `f64` value. -/
def F64.val (q : ℚ) : F64 := some q

/-- Rust `==` on `f64`: NaN is equal to nothing, including itself. -/
def F64.rustEq (a b : F64) : Bool :=
  match a, b with
  | some x, some y => x = y
  | _, _ => false

/-- Rust `>` on `f64`: false whenever either side is NaN. -/
def F64.rustGt (a b : F64) : Bool :=
  match a, b with
  | some x, some y => x > y
  | _, _ => false

/-- Rust `<` on `f64`: false whenever either side is NaN. -/
def F64.rustLt (a b : F64) : Bool :=
  match a, b with
  | some x, some y => x < y
  | _, _ => false

/-- Rust `as u32` cast from `f64`: truncate toward zero (`Int.tdiv`)
and saturate to `[0, 2^32 - 1]`; NaN casts to `0`. -/
def F64.castU32 (a : F64) : Nat :=
  match a with
  | none => 0
  | some q =>
    let t : Int := q.num.tdiv q.den
    if t ≤ 0 then 0 else min t.toNat (2 ^ 32 - 1)

/-- Rust `as i32` cast from `f64`: truncate toward zero (`Int.tdiv`)
and saturate to `[-2^31, 2^31 - 1]`; NaN casts to `0`. -/
def F64.castI32 (a : F64) : Int :=
  match a with
  | none => 0
  | some q =>
    let t : Int := q.num.tdiv q.den
    if t < -(2 ^ 31) then -(2 ^ 31)
    else if t > 2 ^ 31 - 1 then 2 ^ 31 - 1
    else t

/-- Outcome of a Rust computation that may panic. -/
inductive RustResult (α : Type) where
  | panics
  | value (a : α)
deriving DecidableEq, Repr

/-- The binary operators distinguished by the passes (swc `BinaryOp`).
`eqEqEq` and `logicalOr` stand for the operators outside the indexer
operator set, so that the catch-all arm of `get_index` is represented. -/
inductive BinaryOp where
  | lshift
  | rshift
  | zrshift
  | add
  | sub
  | mul
  | div
  | mod
  | bitOr
  | bitXor
  | bitAnd
  | exp
  | eqEqEq
  | logicalOr
deriving DecidableEq, Repr

/-- A binding pattern (swc `Pat`) restricted to the shapes the passes
match on: a binding identifier (`Pat::Ident`, whose inner `Ident` is
visited by `visit_mut_ident`), or `Pat::Invalid` as produced by
`Take::take`.  Other pattern forms are outside the embedded subset. -/
inductive PatName where
  | pid (sym : JsWord) (span : Span)
  | pInvalid
deriving DecidableEq, Repr

mutual

/-- Expressions (swc `Expr`), restricted to the variants the passes
inspect.  `invalid` is `Expr::Invalid` produced by `Take::take`. -/
inductive Expr where
  | identE (sym : JsWord) (span : Span)
  | numLit (v : F64)
  | strLit (s : String)
  | member (obj : Expr) (prop : MemberProp) (span : Span)
  | call (callee : Expr) (args : ExprList) (span : Span)
  | bin (op : BinaryOp) (lhs rhs : Expr)
  | array (elems : ElemList)
  | fnExpr (params : List PatName) (body : StmtList)
  | invalid
deriving Repr, DecidableEq

/-- A member property (swc `MemberProp`): a static identifier or a
computed key. -/
inductive MemberProp where
  | pIdent (sym : JsWord) (span : Span)
  | computed (key : Expr) (span : Span)
deriving Repr, DecidableEq

/-- A list of argument expressions (swc `Vec<ExprOrSpread>`, with the
spread flags not represented because no pass inspects them on calls). -/
inductive ExprList where
  | nil
  | cons (hd : Expr) (tl : ExprList)
deriving Repr, DecidableEq

/-- An array-literal element (swc `Option<ExprOrSpread>`): a hole or an
element with a spread flag. -/
inductive Elem where
  | hole
  | elem (spread : Bool) (e : Expr)
deriving Repr, DecidableEq

/-- A list of array-literal elements. -/
inductive ElemList where
  | nil
  | cons (hd : Elem) (tl : ElemList)
deriving Repr, DecidableEq

/-- An optional initializer of a variable declarator. -/
inductive OExpr where
  | none
  | some (e : Expr)
deriving Repr, DecidableEq

/-- A variable declarator (swc `VarDeclarator`). -/
inductive Declarator where
  | mk (name : PatName) (init : OExpr)
deriving Repr, DecidableEq

/-- A list of variable declarators. -/
inductive DeclList where
  | nil
  | cons (hd : Declarator) (tl : DeclList)
deriving Repr, DecidableEq

/-- Statements (swc `Stmt`), restricted to the variants the passes
inspect.  `empty` is `Stmt::Empty` produced by `Take::take`. -/
inductive Stmt where
  | exprStmt (e : Expr)
  | varDecl (decls : DeclList)
  | fnDecl (sym : JsWord) (span : Span) (params : List PatName) (body : StmtList)
  | retSome (e : Expr)
  | retNone
  | empty
deriving Repr, DecidableEq

/-- A list of statements (a script body or a function body). -/
inductive StmtList where
  | nil
  | cons (hd : Stmt) (tl : StmtList)
deriving Repr, DecidableEq

end

/-- A parsed script (`Program::Script`): its top-level statements. -/
abbrev Program := StmtList

/-- The transformation passes chained by `generate_answer` in
`src/lib.rs`. -/
inductive Pass where
  | exprSimplifier
  | resolver
  | proxyVars
  | strings
  | computedMemberExpr
  | mathExpr
deriving DecidableEq, Repr

/-- The `chain!` of transforms applied by `generate_answer`
(`src/lib.rs`, lines 269 to 282), in application order. -/
def transformChain : List Pass :=
  [Pass.exprSimplifier, Pass.resolver, Pass.proxyVars, Pass.strings,
   Pass.computedMemberExpr, Pass.mathExpr]

/-- Whether a pass is one of the AST-rewriting deobfuscation passes
(the spec letters D, E, F, G). -/
def Pass.isRewriting : Pass → Bool
  | Pass.proxyVars => true
  | Pass.strings => true
  | Pass.computedMemberExpr => true
  | Pass.mathExpr => true
  | _ => false

/-- The subsequence of AST-rewriting deobfuscation passes applied by
the driver, in order. -/
def rewritingPasses : List Pass := transformChain.filter Pass.isRewriting

namespace Cm

/-- The rewriting step of the overridden `visit_mut_member_expr` in
`deobfuscate/computed_member_expr.rs`, applied to the property after
the children have been visited: a computed property whose key is a
string literal becomes a static identifier property with the string
value and the span of the computed property; every other property is
left unchanged. -/
def memberStep : MemberProp → MemberProp
  | MemberProp.computed (Expr.strLit s) psp => MemberProp.pIdent s psp
  | p => p

mutual

/-- `deobfuscate/computed_member_expr.rs`: the visitor on expressions.
Only `visit_mut_member_expr` is overridden, so every other node simply
visits its children; a member expression visits its children and then
applies `memberStep` to its property. -/
def visitExpr : Expr → Expr
  | Expr.identE s sp => Expr.identE s sp
  | Expr.numLit v => Expr.numLit v
  | Expr.strLit s => Expr.strLit s
  | Expr.member obj prop sp => Expr.member (visitExpr obj) (memberStep (visitProp prop)) sp
  | Expr.call c a sp => Expr.call (visitExpr c) (visitArgs a) sp
  | Expr.bin op l r => Expr.bin op (visitExpr l) (visitExpr r)
  | Expr.array es => Expr.array (visitElems es)
  | Expr.fnExpr ps b => Expr.fnExpr ps (visitStmts b)
  | Expr.invalid => Expr.invalid

/-- Children of a member property: a computed key is an expression. -/
def visitProp : MemberProp → MemberProp
  | MemberProp.pIdent s sp => MemberProp.pIdent s sp
  | MemberProp.computed e sp => MemberProp.computed (visitExpr e) sp

/-- Children of an argument list. -/
def visitArgs : ExprList → ExprList
  | ExprList.nil => ExprList.nil
  | ExprList.cons e tl => ExprList.cons (visitExpr e) (visitArgs tl)

/-- Children of an array-literal element. -/
def visitElem : Elem → Elem
  | Elem.hole => Elem.hole
  | Elem.elem sp e => Elem.elem sp (visitExpr e)

/-- Children of an element list. -/
def visitElems : ElemList → ElemList
  | ElemList.nil => ElemList.nil
  | ElemList.cons h tl => ElemList.cons (visitElem h) (visitElems tl)

/-- Children of an optional initializer. -/
def visitOExpr : OExpr → OExpr
  | OExpr.none => OExpr.none
  | OExpr.some e => OExpr.some (visitExpr e)

/-- Children of a variable declarator. -/
def visitDecl : Declarator → Declarator
  | Declarator.mk name ini => Declarator.mk name (visitOExpr ini)

/-- Children of a declarator list. -/
def visitDecls : DeclList → DeclList
  | DeclList.nil => DeclList.nil
  | DeclList.cons d tl => DeclList.cons (visitDecl d) (visitDecls tl)

/-- Children of a statement. -/
def visitStmt : Stmt → Stmt
  | Stmt.exprStmt e => Stmt.exprStmt (visitExpr e)
  | Stmt.varDecl ds => Stmt.varDecl (visitDecls ds)
  | Stmt.fnDecl s sp ps b => Stmt.fnDecl s sp ps (visitStmts b)
  | Stmt.retSome e => Stmt.retSome (visitExpr e)
  | Stmt.retNone => Stmt.retNone
  | Stmt.empty => Stmt.empty

/-- Children of a statement list (the whole program for a script). -/
def visitStmts : StmtList → StmtList
  | StmtList.nil => StmtList.nil
  | StmtList.cons s tl => StmtList.cons (visitStmt s) (visitStmts tl)

end

mutual

/-- An expression is clean when no member node in it has a computed
property whose key is a string literal (the redex of this pass). -/
def exprClean : Expr → Bool
  | Expr.identE _ _ => true
  | Expr.numLit _ => true
  | Expr.strLit _ => true
  | Expr.member obj prop _ => exprClean obj && propClean prop
  | Expr.call c a _ => exprClean c && argsClean a
  | Expr.bin _ l r => exprClean l && exprClean r
  | Expr.array es => elemsClean es
  | Expr.fnExpr _ b => stmtsClean b
  | Expr.invalid => true

/-- A member property is clean when it is not a computed string-literal
key, and its key expression is clean. -/
def propClean : MemberProp → Bool
  | MemberProp.pIdent _ _ => true
  | MemberProp.computed (Expr.strLit _) _ => false
  | MemberProp.computed e _ => exprClean e

def argsClean : ExprList → Bool
  | ExprList.nil => true
  | ExprList.cons e tl => exprClean e && argsClean tl

def elemClean : Elem → Bool
  | Elem.hole => true
  | Elem.elem _ e => exprClean e

def elemsClean : ElemList → Bool
  | ElemList.nil => true
  | ElemList.cons h tl => elemClean h && elemsClean tl

def oexprClean : OExpr → Bool
  | OExpr.none => true
  | OExpr.some e => exprClean e

def declClean : Declarator → Bool
  | Declarator.mk _ ini => oexprClean ini

def declsClean : DeclList → Bool
  | DeclList.nil => true
  | DeclList.cons d tl => declClean d && declsClean tl

def stmtClean : Stmt → Bool
  | Stmt.exprStmt e => exprClean e
  | Stmt.varDecl ds => declsClean ds
  | Stmt.fnDecl _ _ _ b => stmtsClean b
  | Stmt.retSome e => exprClean e
  | Stmt.retNone => true
  | Stmt.empty => true

def stmtsClean : StmtList → Bool
  | StmtList.nil => true
  | StmtList.cons s tl => stmtClean s && stmtsClean tl

end

end Cm

/-- Association-list lookup, modelling `HashMap::get`: the most recent
insertion for a key wins. -/
def amapFind {α β : Type} [DecidableEq α] : List (α × β) → α → Option β
  | [], _ => Option.none
  | (k, v) :: tl, k2 => if k = k2 then Option.some v else amapFind tl k2

/-- Association-list insertion, modelling `HashMap::insert`: the new
entry shadows any previous entry for the key. -/
def amapInsert {α β : Type} (m : List (α × β)) (k : α) (v : β) : List (α × β) :=
  (k, v) :: m

/-- Association-list removal, modelling `HashMap::remove`: every entry
for the key disappears. -/
def amapRemove {α β : Type} [DecidableEq α] (m : List (α × β)) (k : α) : List (α × β) :=
  m.filter (fun p => decide (p.1 ≠ k))

namespace Pv

/-- State of `proxy_vars.rs` `FunctionVisitor`: the binding identities
of function declarations and, for each symbol, the deepest syntax
context observed for an identifier with that symbol. -/
structure FnV where
  functions : List Idn
  identifiers : List (JsWord × Ctxt)
deriving Repr, DecidableEq

/-- The initial `FunctionVisitor` state (`Default`). -/
def FnV.init : FnV := ⟨[], []⟩

/-- `FunctionVisitor::visit_mut_ident`: record the deepest syntax
context seen for the symbol. -/
def fvIdent (s : FnV) (sym : JsWord) (sp : Span) : FnV :=
  match amapFind s.identifiers sym with
  | Option.some v =>
    if sp.ctxt > v then { s with identifiers := amapInsert s.identifiers sym sp.ctxt } else s
  | Option.none => { s with identifiers := amapInsert s.identifiers sym sp.ctxt }

/-- `FunctionVisitor` on a binding pattern: a `Pat::Ident` contains an
`Ident`, which the default traversal feeds to `visit_mut_ident`. -/
def fvPat (s : FnV) : PatName → FnV
  | PatName.pid sym sp => fvIdent s sym sp
  | PatName.pInvalid => s

/-- `FunctionVisitor` on a parameter list. -/
def fvParams (s : FnV) : List PatName → FnV
  | [] => s
  | p :: tl => fvParams (fvPat s p) tl

mutual

/-- `FunctionVisitor` default traversal over expressions; only
`visit_mut_fn_decl` and `visit_mut_ident` are overridden. -/
def fvExpr (s : FnV) : Expr → FnV
  | Expr.identE sym sp => fvIdent s sym sp
  | Expr.numLit _ => s
  | Expr.strLit _ => s
  | Expr.member obj prop _ => fvProp (fvExpr s obj) prop
  | Expr.call c a _ => fvArgs (fvExpr s c) a
  | Expr.bin _ l r => fvExpr (fvExpr s l) r
  | Expr.array es => fvElems s es
  | Expr.fnExpr ps b => fvStmts (fvParams s ps) b
  | Expr.invalid => s

/-- A static member property contains an `Ident`, fed to
`visit_mut_ident` by the default traversal. -/
def fvProp (s : FnV) : MemberProp → FnV
  | MemberProp.pIdent sym sp => fvIdent s sym sp
  | MemberProp.computed e _ => fvExpr s e

def fvArgs (s : FnV) : ExprList → FnV
  | ExprList.nil => s
  | ExprList.cons e tl => fvArgs (fvExpr s e) tl

def fvElem (s : FnV) : Elem → FnV
  | Elem.hole => s
  | Elem.elem _ e => fvExpr s e

def fvElems (s : FnV) : ElemList → FnV
  | ElemList.nil => s
  | ElemList.cons h tl => fvElems (fvElem s h) tl

def fvOExpr (s : FnV) : OExpr → FnV
  | OExpr.none => s
  | OExpr.some e => fvExpr s e

def fvDecl (s : FnV) : Declarator → FnV
  | Declarator.mk name ini => fvOExpr (fvPat s name) ini

def fvDecls (s : FnV) : DeclList → FnV
  | DeclList.nil => s
  | DeclList.cons d tl => fvDecls (fvDecl s d) tl

/-- `FunctionVisitor::visit_mut_fn_decl` records the function identity
before visiting the children (the declaration ident included). -/
def fvStmt (s : FnV) : Stmt → FnV
  | Stmt.exprStmt e => fvExpr s e
  | Stmt.varDecl ds => fvDecls s ds
  | Stmt.fnDecl sym sp ps b =>
    let s1 := { s with functions := (sym, sp.ctxt) :: s.functions }
    fvStmts (fvParams (fvIdent s1 sym sp) ps) b
  | Stmt.retSome e => fvExpr s e
  | Stmt.retNone => s
  | Stmt.empty => s

def fvStmts (s : FnV) : StmtList → FnV
  | StmtList.nil => s
  | StmtList.cons h tl => fvStmts (fvStmt s h) tl

end

/-- State of the main `proxy_vars.rs` `Visitor`. -/
structure St where
  functions : List Idn
  identifiers : List (JsWord × Ctxt)
  replacements : List (Idn × (JsWord × Span))
  newNameCounter : Nat
  fnReplacements : List (Idn × JsWord)
deriving Repr, DecidableEq

/-- `Visitor::visit_mut_ident`: replace the identifier when its binding
identity is in the substitution table (the replacement carries the
symbol and the span of the chosen replacement `Ident`). -/
def mvIdent (s : St) (sym : JsWord) (sp : Span) : JsWord × Span :=
  match amapFind s.replacements (sym, sp.ctxt) with
  | Option.some r => r
  | Option.none => (sym, sp)

/-- The main visitor on a binding pattern: the `Ident` inside a
`Pat::Ident` is also fed to `visit_mut_ident` by the traversal. -/
def mvPat (s : St) : PatName → PatName
  | PatName.pid sym sp =>
    let r := mvIdent s sym sp
    PatName.pid r.1 r.2
  | PatName.pInvalid => PatName.pInvalid

/-- The main visitor on a parameter list (state is never changed by
identifier visits, so only the patterns are rewritten). -/
def mvParams (s : St) : List PatName → List PatName
  | [] => []
  | p :: tl => mvPat s p :: mvParams s tl

/-- `Visitor::visit_mut_var_declarator` after the children have been
visited: when the name is an identifier pattern and the initializer is
a bare identifier whose binding identity is a function declaration,
choose the replacement symbol (renaming the function when a deeper
scope uses the same symbol), record the substitution, and invalidate
the declarator name.  Returns the updated state and declarator. -/
def declStep (s : St) (name : PatName) (ini : OExpr) : St × Declarator :=
  match name, ini with
  | PatName.pid vsym vsp, OExpr.some (Expr.identE fsym fsp) =>
    if (fsym, fsp.ctxt) ∈ s.functions then
      let pick : St × JsWord :=
        match amapFind s.identifiers fsym with
        | Option.some highest =>
          if fsp.ctxt < highest then
            let newName := "proxyFn" ++ toString s.newNameCounter
            ({ s with
                newNameCounter := s.newNameCounter + 1,
                fnReplacements := amapInsert s.fnReplacements (fsym, fsp.ctxt) newName },
             newName)
          else (s, fsym)
        | Option.none => (s, fsym)
      let s2 := pick.1
      let s3 := { s2 with
        replacements := amapInsert s2.replacements (vsym, vsp.ctxt) (pick.2, fsp) }
      (s3, Declarator.mk PatName.pInvalid (OExpr.some (Expr.identE fsym fsp)))
    else (s, Declarator.mk name ini)
  | _, _ => (s, Declarator.mk name ini)

mutual

/-- The main visitor over expressions (default traversal; only
`visit_mut_ident` and the declarator hooks are overridden). -/
def mvExpr (s : St) : Expr → St × Expr
  | Expr.identE sym sp =>
    let r := mvIdent s sym sp
    (s, Expr.identE r.1 r.2)
  | Expr.numLit v => (s, Expr.numLit v)
  | Expr.strLit str => (s, Expr.strLit str)
  | Expr.member obj prop sp =>
    let ro := mvExpr s obj
    let rp := mvProp ro.1 prop
    (rp.1, Expr.member ro.2 rp.2 sp)
  | Expr.call c a sp =>
    let rc := mvExpr s c
    let ra := mvArgs rc.1 a
    (ra.1, Expr.call rc.2 ra.2 sp)
  | Expr.bin op l r =>
    let rl := mvExpr s l
    let rr := mvExpr rl.1 r
    (rr.1, Expr.bin op rl.2 rr.2)
  | Expr.array es =>
    let re := mvElems s es
    (re.1, Expr.array re.2)
  | Expr.fnExpr ps b =>
    let rb := mvStmts s b
    (rb.1, Expr.fnExpr (mvParams s ps) rb.2)
  | Expr.invalid => (s, Expr.invalid)

def mvProp (s : St) : MemberProp → St × MemberProp
  | MemberProp.pIdent sym sp =>
    let r := mvIdent s sym sp
    (s, MemberProp.pIdent r.1 r.2)
  | MemberProp.computed e sp =>
    let re := mvExpr s e
    (re.1, MemberProp.computed re.2 sp)

def mvArgs (s : St) : ExprList → St × ExprList
  | ExprList.nil => (s, ExprList.nil)
  | ExprList.cons e tl =>
    let re := mvExpr s e
    let rt := mvArgs re.1 tl
    (rt.1, ExprList.cons re.2 rt.2)

def mvElem (s : St) : Elem → St × Elem
  | Elem.hole => (s, Elem.hole)
  | Elem.elem spread e =>
    let re := mvExpr s e
    (re.1, Elem.elem spread re.2)

def mvElems (s : St) : ElemList → St × ElemList
  | ElemList.nil => (s, ElemList.nil)
  | ElemList.cons h tl =>
    let rh := mvElem s h
    let rt := mvElems rh.1 tl
    (rt.1, ElemList.cons rh.2 rt.2)

def mvOExpr (s : St) : OExpr → St × OExpr
  | OExpr.none => (s, OExpr.none)
  | OExpr.some e =>
    let re := mvExpr s e
    (re.1, OExpr.some re.2)

/-- `visit_mut_var_declarator`: children first (name pattern, then
initializer), then the replacement-recording step. -/
def mvDecl (s : St) : Declarator → St × Declarator
  | Declarator.mk name ini =>
    let name2 := mvPat s name
    let ri := mvOExpr s ini
    declStep ri.1 name2 ri.2

/-- `visit_mut_var_declarators`: children first, then drop declarators
whose name was invalidated. -/
def mvDecls (s : St) : DeclList → St × DeclList
  | DeclList.nil => (s, DeclList.nil)
  | DeclList.cons d tl =>
    let rd := mvDecl s d
    let rt := mvDecls rd.1 tl
    match rd.2 with
    | Declarator.mk PatName.pInvalid _ => (rt.1, rt.2)
    | d2 => (rt.1, DeclList.cons d2 rt.2)

/-- `visit_mut_stmt`: children first, then replace a variable
declaration whose declarator list became empty with `Stmt::Empty`. -/
def mvStmt (s : St) : Stmt → St × Stmt
  | Stmt.exprStmt e =>
    let re := mvExpr s e
    (re.1, Stmt.exprStmt re.2)
  | Stmt.varDecl ds =>
    let rd := mvDecls s ds
    match rd.2 with
    | DeclList.nil => (rd.1, Stmt.empty)
    | ds2 => (rd.1, Stmt.varDecl ds2)
  | Stmt.fnDecl sym sp ps b =>
    let r := mvIdent s sym sp
    let rb := mvStmts s b
    (rb.1, Stmt.fnDecl r.1 r.2 (mvParams s ps) rb.2)
  | Stmt.retSome e =>
    let re := mvExpr s e
    (re.1, Stmt.retSome re.2)
  | Stmt.retNone => (s, Stmt.retNone)
  | Stmt.empty => (s, Stmt.empty)

def mvStmts (s : St) : StmtList → St × StmtList
  | StmtList.nil => (s, StmtList.nil)
  | StmtList.cons h tl =>
    let rh := mvStmt s h
    let rt := mvStmts rh.1 tl
    (rt.1, StmtList.cons rh.2 rt.2)

end

mutual

/-- `RenameFunctionVisitor` over expressions: default traversal; only
`visit_mut_fn_decl` is overridden. -/
def rnExpr (m : List (Idn × JsWord)) : Expr → List (Idn × JsWord) × Expr
  | Expr.identE sym sp => (m, Expr.identE sym sp)
  | Expr.numLit v => (m, Expr.numLit v)
  | Expr.strLit str => (m, Expr.strLit str)
  | Expr.member obj prop sp =>
    let ro := rnExpr m obj
    let rp := rnProp ro.1 prop
    (rp.1, Expr.member ro.2 rp.2 sp)
  | Expr.call c a sp =>
    let rc := rnExpr m c
    let ra := rnArgs rc.1 a
    (ra.1, Expr.call rc.2 ra.2 sp)
  | Expr.bin op l r =>
    let rl := rnExpr m l
    let rr := rnExpr rl.1 r
    (rr.1, Expr.bin op rl.2 rr.2)
  | Expr.array es =>
    let re := rnElems m es
    (re.1, Expr.array re.2)
  | Expr.fnExpr ps b =>
    let rb := rnStmts m b
    (rb.1, Expr.fnExpr ps rb.2)
  | Expr.invalid => (m, Expr.invalid)

def rnProp (m : List (Idn × JsWord)) : MemberProp → List (Idn × JsWord) × MemberProp
  | MemberProp.pIdent sym sp => (m, MemberProp.pIdent sym sp)
  | MemberProp.computed e sp =>
    let re := rnExpr m e
    (re.1, MemberProp.computed re.2 sp)

def rnArgs (m : List (Idn × JsWord)) : ExprList → List (Idn × JsWord) × ExprList
  | ExprList.nil => (m, ExprList.nil)
  | ExprList.cons e tl =>
    let re := rnExpr m e
    let rt := rnArgs re.1 tl
    (rt.1, ExprList.cons re.2 rt.2)

def rnElem (m : List (Idn × JsWord)) : Elem → List (Idn × JsWord) × Elem
  | Elem.hole => (m, Elem.hole)
  | Elem.elem spread e =>
    let re := rnExpr m e
    (re.1, Elem.elem spread re.2)

def rnElems (m : List (Idn × JsWord)) : ElemList → List (Idn × JsWord) × ElemList
  | ElemList.nil => (m, ElemList.nil)
  | ElemList.cons h tl =>
    let rh := rnElem m h
    let rt := rnElems rh.1 tl
    (rt.1, ElemList.cons rh.2 rt.2)

def rnOExpr (m : List (Idn × JsWord)) : OExpr → List (Idn × JsWord) × OExpr
  | OExpr.none => (m, OExpr.none)
  | OExpr.some e =>
    let re := rnExpr m e
    (re.1, OExpr.some re.2)

def rnDecl (m : List (Idn × JsWord)) : Declarator → List (Idn × JsWord) × Declarator
  | Declarator.mk name ini =>
    let ri := rnOExpr m ini
    (ri.1, Declarator.mk name ri.2)

def rnDecls (m : List (Idn × JsWord)) : DeclList → List (Idn × JsWord) × DeclList
  | DeclList.nil => (m, DeclList.nil)
  | DeclList.cons d tl =>
    let rd := rnDecl m d
    let rt := rnDecls rd.1 tl
    (rt.1, DeclList.cons rd.2 rt.2)

/-- `RenameFunctionVisitor::visit_mut_fn_decl`: when the declaration is
in the rename table, remove it, rename the declaration, and visit the
children only if entries remain; a declaration not in the table is not
traversed at all. -/
def rnStmt (m : List (Idn × JsWord)) : Stmt → List (Idn × JsWord) × Stmt
  | Stmt.exprStmt e =>
    let re := rnExpr m e
    (re.1, Stmt.exprStmt re.2)
  | Stmt.varDecl ds =>
    let rd := rnDecls m ds
    (rd.1, Stmt.varDecl rd.2)
  | Stmt.fnDecl sym sp ps b =>
    match amapFind m (sym, sp.ctxt) with
    | Option.some newName =>
      let m2 := amapRemove m (sym, sp.ctxt)
      if m2.isEmpty then (m2, Stmt.fnDecl newName sp ps b)
      else
        let rb := rnStmts m2 b
        (rb.1, Stmt.fnDecl newName sp ps rb.2)
    | Option.none => (m, Stmt.fnDecl sym sp ps b)
  | Stmt.retSome e =>
    let re := rnExpr m e
    (re.1, Stmt.retSome re.2)
  | Stmt.retNone => (m, Stmt.retNone)
  | Stmt.empty => (m, Stmt.empty)

def rnStmts (m : List (Idn × JsWord)) : StmtList → List (Idn × JsWord) × StmtList
  | StmtList.nil => (m, StmtList.nil)
  | StmtList.cons h tl =>
    let rh := rnStmt m h
    let rt := rnStmts rh.1 tl
    (rt.1, StmtList.cons rh.2 rt.2)

end

/-- `Visitor::visit_mut_program` for a script: run the pre-pass, run
the main pass with the collected tables, then run the rename pass when
any function was marked for renaming. -/
def program (prog : Program) : Program :=
  let pre := fvStmts FnV.init prog
  let s0 : St := ⟨pre.functions, pre.identifiers, [], 0, []⟩
  let rm := mvStmts s0 prog
  if rm.1.fnReplacements.isEmpty then rm.2
  else (rnStmts rm.1.fnReplacements rm.2).2

end Pv

/-- Sequencing for Rust computations that may panic. -/
def RustResult.bind {α β : Type} : RustResult α → (α → RustResult β) → RustResult β
  | RustResult.panics, _ => RustResult.panics
  | RustResult.value a, f => f a

namespace So

/-- The index data of `strings.rs` (`struct Index`): the literal offset
(an `f64`, as stored from the numeric literal) and the operator. -/
structure Index where
  offset : F64
  op : BinaryOp
deriving Repr, DecidableEq

/-- `strings.rs` `get_index`: compute a fake index into the real index
in 32-bit unsigned arithmetic.  Release-profile Rust semantics: `+`,
`-`, `*` and `pow` wrap modulo `2 ^ 32`, shift counts are masked to
five bits, and division or remainder by zero panics (in every build
profile).  Operators outside the supported set give `none`. -/
def get_index (index offset : Nat) (op : BinaryOp) : RustResult (Option Nat) :=
  match op with
  | BinaryOp.lshift => RustResult.value (Option.some ((index <<< (offset % 32)) % 2 ^ 32))
  | BinaryOp.rshift => RustResult.value (Option.some (index >>> (offset % 32)))
  | BinaryOp.zrshift => RustResult.value (Option.some (index >>> (offset % 32)))
  | BinaryOp.add => RustResult.value (Option.some ((index + offset) % 2 ^ 32))
  | BinaryOp.sub => RustResult.value (Option.some ((index + (2 ^ 32 - offset % 2 ^ 32)) % 2 ^ 32))
  | BinaryOp.mul => RustResult.value (Option.some ((index * offset) % 2 ^ 32))
  | BinaryOp.div =>
    if offset = 0 then RustResult.panics else RustResult.value (Option.some (index / offset))
  | BinaryOp.mod =>
    if offset = 0 then RustResult.panics else RustResult.value (Option.some (index % offset))
  | BinaryOp.bitOr => RustResult.value (Option.some (index ||| offset))
  | BinaryOp.bitXor => RustResult.value (Option.some (index ^^^ offset))
  | BinaryOp.bitAnd => RustResult.value (Option.some (index &&& offset))
  | BinaryOp.exp => RustResult.value (Option.some ((index ^ offset) % 2 ^ 32))
  | _ => RustResult.value Option.none

/-- The non-ASCII codepoint ranges of Unicode general category N
(`Nd`, `Nl`, `No`), the set recognised by Rust `char::is_numeric`
beyond the ASCII digits (Unicode 14.0 data). -/
def numericRanges : List (Nat × Nat) := [
  (178, 179), (185, 185), (188, 190), (1632, 1641), (1776, 1785), (1984, 1993),
  (2406, 2415), (2534, 2543), (2548, 2553), (2662, 2671), (2790, 2799), (2918, 2927),
  (2930, 2935), (3046, 3058), (3174, 3183), (3192, 3198), (3302, 3311), (3416, 3422),
  (3430, 3448), (3558, 3567), (3664, 3673), (3792, 3801), (3872, 3891), (4160, 4169),
  (4240, 4249), (4969, 4988), (5870, 5872), (6112, 6121), (6128, 6137), (6160, 6169),
  (6470, 6479), (6608, 6618), (6784, 6793), (6800, 6809), (6992, 7001), (7088, 7097),
  (7232, 7241), (7248, 7257), (8304, 8304), (8308, 8313), (8320, 8329), (8528, 8578),
  (8581, 8585), (9312, 9371), (9450, 9471), (10102, 10131), (11517, 11517), (12295, 12295),
  (12321, 12329), (12344, 12346), (12690, 12693), (12832, 12841), (12872, 12879), (12881, 12895),
  (12928, 12937), (12977, 12991), (42528, 42537), (42726, 42735), (43056, 43061), (43216, 43225),
  (43264, 43273), (43472, 43481), (43504, 43513), (43600, 43609), (44016, 44025), (65296, 65305),
  (65799, 65843), (65856, 65912), (65930, 65931), (66273, 66299), (66336, 66339), (66369, 66369),
  (66378, 66378), (66513, 66517), (66720, 66729), (67672, 67679), (67705, 67711), (67751, 67759),
  (67835, 67839), (67862, 67867), (68028, 68029), (68032, 68047), (68050, 68095), (68160, 68168),
  (68221, 68222), (68253, 68255), (68331, 68335), (68440, 68447), (68472, 68479), (68521, 68527),
  (68858, 68863), (68912, 68921), (69216, 69246), (69405, 69414), (69457, 69460), (69573, 69579),
  (69714, 69743), (69872, 69881), (69942, 69951), (70096, 70105), (70113, 70132), (70384, 70393),
  (70736, 70745), (70864, 70873), (71248, 71257), (71360, 71369), (71472, 71483), (71904, 71922),
  (72016, 72025), (72784, 72812), (73040, 73049), (73120, 73129), (73664, 73684), (74752, 74862),
  (92768, 92777), (92864, 92873), (93008, 93017), (93019, 93025), (93824, 93846), (119520, 119539),
  (119648, 119672), (120782, 120831), (123200, 123209), (123632, 123641), (125127, 125135), (125264, 125273),
  (126065, 126123), (126125, 126127), (126129, 126132), (126209, 126253), (126255, 126269), (127232, 127244),
  (130032, 130041)]

/-- Rust `char::is_numeric`: an ASCII digit or a codepoint of Unicode
general category N. -/
def charIsNumeric (c : Char) : Bool :=
  c.isDigit || numericRanges.any (fun p => p.1 ≤ c.toNat && c.toNat ≤ p.2)

/-- `strings.rs` `atoi::<usize>`: slice the input at the first character
that is not `char::is_numeric` and parse the prefix with
`usize::from_str`, which succeeds exactly on a nonempty all-ASCII-digit
prefix whose value fits 64-bit `usize`. -/
def atoi (input : String) : Option Nat :=
  let pre := input.data.takeWhile charIsNumeric
  if pre.isEmpty then Option.none
  else if pre.all (fun c => c.isDigit) then
    let v := pre.foldl (fun acc c => acc * 10 + (c.toNat - 48)) 0
    if v < 2 ^ 64 then Option.some v else Option.none
  else Option.none

/-- State of `FindObfuscatedStringsVisitor`. -/
structure FindObf where
  isInsideFn : Bool
  fnId : Option Idn
  obfStrings : Option (List JsWord)
deriving Repr, DecidableEq

/-- The initial `FindObfuscatedStringsVisitor` state (`Default`). -/
def FindObf.init : FindObf := ⟨false, Option.none, Option.none⟩

/-- The element scan of `visit_mut_array_lit`: every element must be
present, not spread, and a string literal; otherwise the visitor
returns without recording anything. -/
def scanElems : ElemList → Option (List JsWord)
  | ElemList.nil => Option.some []
  | ElemList.cons Elem.hole _ => Option.none
  | ElemList.cons (Elem.elem true _) _ => Option.none
  | ElemList.cons (Elem.elem false (Expr.strLit s)) tl =>
    (scanElems tl).map (fun l => s :: l)
  | ElemList.cons (Elem.elem false _) _ => Option.none

/-- `FindObfuscatedStringsVisitor::visit_mut_array_lit`: record the
strings of a qualifying array literal when inside a function
declaration.  The children of the array are never visited. -/
def foArray (s : FindObf) (es : ElemList) : FindObf :=
  if s.isInsideFn then
    match scanElems es with
    | Option.some l => { s with obfStrings := Option.some l }
    | Option.none => s
  else s

mutual

/-- `FindObfuscatedStringsVisitor` default traversal over expressions;
`visit_mut_fn_decl` and `visit_mut_array_lit` are the overrides. -/
def foExpr (s : FindObf) : Expr → FindObf × Expr
  | Expr.identE sym sp => (s, Expr.identE sym sp)
  | Expr.numLit v => (s, Expr.numLit v)
  | Expr.strLit str => (s, Expr.strLit str)
  | Expr.member obj prop sp =>
    let ro := foExpr s obj
    let rp := foProp ro.1 prop
    (rp.1, Expr.member ro.2 rp.2 sp)
  | Expr.call c a sp =>
    let rc := foExpr s c
    let ra := foArgs rc.1 a
    (ra.1, Expr.call rc.2 ra.2 sp)
  | Expr.bin op l r =>
    let rl := foExpr s l
    let rr := foExpr rl.1 r
    (rr.1, Expr.bin op rl.2 rr.2)
  | Expr.array es => (foArray s es, Expr.array es)
  | Expr.fnExpr ps b =>
    let rb := foStmts s b
    (rb.1, Expr.fnExpr ps rb.2)
  | Expr.invalid => (s, Expr.invalid)

def foProp (s : FindObf) : MemberProp → FindObf × MemberProp
  | MemberProp.pIdent sym sp => (s, MemberProp.pIdent sym sp)
  | MemberProp.computed e sp =>
    let re := foExpr s e
    (re.1, MemberProp.computed re.2 sp)

def foArgs (s : FindObf) : ExprList → FindObf × ExprList
  | ExprList.nil => (s, ExprList.nil)
  | ExprList.cons e tl =>
    let re := foExpr s e
    let rt := foArgs re.1 tl
    (rt.1, ExprList.cons re.2 rt.2)

def foOExpr (s : FindObf) : OExpr → FindObf × OExpr
  | OExpr.none => (s, OExpr.none)
  | OExpr.some e =>
    let re := foExpr s e
    (re.1, OExpr.some re.2)

def foDecl (s : FindObf) : Declarator → FindObf × Declarator
  | Declarator.mk name ini =>
    let ri := foOExpr s ini
    (ri.1, Declarator.mk name ri.2)

def foDecls (s : FindObf) : DeclList → FindObf × DeclList
  | DeclList.nil => (s, DeclList.nil)
  | DeclList.cons d tl =>
    let rd := foDecl s d
    let rt := foDecls rd.1 tl
    (rt.1, DeclList.cons rd.2 rt.2)

/-- `FindObfuscatedStringsVisitor::visit_mut_fn_decl`: skip entirely
when the producer was already found; otherwise visit the children with
the inside-function flag raised, and afterwards, if strings have been
recorded, store this declaration as the producer and take it (replace
it with the dummy declaration). -/
def foStmt (s : FindObf) : Stmt → FindObf × Stmt
  | Stmt.exprStmt e =>
    let re := foExpr s e
    (re.1, Stmt.exprStmt re.2)
  | Stmt.varDecl ds =>
    let rd := foDecls s ds
    (rd.1, Stmt.varDecl rd.2)
  | Stmt.fnDecl sym sp ps b =>
    if s.fnId.isSome then (s, Stmt.fnDecl sym sp ps b)
    else
      let s1 := { s with isInsideFn := true }
      let r := foStmts s1 b
      let s2 := { r.1 with isInsideFn := s.isInsideFn }
      if s2.obfStrings.isSome then
        ({ s2 with fnId := Option.some (sym, sp.ctxt) },
         Stmt.fnDecl "" Span.dummy [] StmtList.nil)
      else (s2, Stmt.fnDecl sym sp ps r.2)
  | Stmt.retSome e =>
    let re := foExpr s e
    (re.1, Stmt.retSome re.2)
  | Stmt.retNone => (s, Stmt.retNone)
  | Stmt.empty => (s, Stmt.empty)

def foStmts (s : FindObf) : StmtList → FindObf × StmtList
  | StmtList.nil => (s, StmtList.nil)
  | StmtList.cons h tl =>
    let rh := foStmt s h
    let rt := foStmts rh.1 tl
    (rt.1, StmtList.cons rh.2 rt.2)

end

/-- The NaN node used by `ExprVisitor` (`Ident::new("NaN", DUMMY_SP)`). -/
def nanNode : Expr := Expr.identE "NaN" Span.dummy

/-- The post-children step of `ExprVisitor::visit_mut_expr` in
`strings.rs`: a call to `parseInt` whose first argument is a call whose
own first argument is a numeric literal is replaced by the dictionary
lookup, a NaN node on any failure; a panic of `get_index` propagates. -/
def svStep (idx : Index) (strs : List JsWord) (e : Expr) : RustResult Expr :=
  match e with
  | Expr.call (Expr.identE "parseInt" _)
      (ExprList.cons (Expr.call _ (ExprList.cons (Expr.numLit off) _) _) _) _ =>
    (get_index (F64.castU32 off) (F64.castU32 idx.offset) idx.op).bind fun oi =>
      RustResult.value
        (match oi with
         | Option.some i =>
           match strs.get? i with
           | Option.some s =>
             match atoi s with
             | Option.some n => Expr.numLit (F64.val n)
             | Option.none => nanNode
           | Option.none => nanNode
         | Option.none => nanNode)
  | _ => RustResult.value e

mutual

/-- `ExprVisitor` over expressions: children first, then `svStep`. -/
def svExpr (idx : Index) (strs : List JsWord) : Expr → RustResult Expr
  | Expr.identE sym sp => svStep idx strs (Expr.identE sym sp)
  | Expr.numLit v => svStep idx strs (Expr.numLit v)
  | Expr.strLit s => svStep idx strs (Expr.strLit s)
  | Expr.member obj prop sp =>
    (svExpr idx strs obj).bind fun o2 =>
    (svProp idx strs prop).bind fun p2 =>
    svStep idx strs (Expr.member o2 p2 sp)
  | Expr.call c a sp =>
    (svExpr idx strs c).bind fun c2 =>
    (svArgs idx strs a).bind fun a2 =>
    svStep idx strs (Expr.call c2 a2 sp)
  | Expr.bin op l r =>
    (svExpr idx strs l).bind fun l2 =>
    (svExpr idx strs r).bind fun r2 =>
    svStep idx strs (Expr.bin op l2 r2)
  | Expr.array es =>
    (svElems idx strs es).bind fun es2 =>
    svStep idx strs (Expr.array es2)
  | Expr.fnExpr ps b =>
    (svStmts idx strs b).bind fun b2 =>
    svStep idx strs (Expr.fnExpr ps b2)
  | Expr.invalid => svStep idx strs Expr.invalid

def svProp (idx : Index) (strs : List JsWord) : MemberProp → RustResult MemberProp
  | MemberProp.pIdent s sp => RustResult.value (MemberProp.pIdent s sp)
  | MemberProp.computed e sp =>
    (svExpr idx strs e).bind fun e2 => RustResult.value (MemberProp.computed e2 sp)

def svArgs (idx : Index) (strs : List JsWord) : ExprList → RustResult ExprList
  | ExprList.nil => RustResult.value ExprList.nil
  | ExprList.cons e tl =>
    (svExpr idx strs e).bind fun e2 =>
    (svArgs idx strs tl).bind fun t2 => RustResult.value (ExprList.cons e2 t2)

def svElem (idx : Index) (strs : List JsWord) : Elem → RustResult Elem
  | Elem.hole => RustResult.value Elem.hole
  | Elem.elem spread e =>
    (svExpr idx strs e).bind fun e2 => RustResult.value (Elem.elem spread e2)

def svElems (idx : Index) (strs : List JsWord) : ElemList → RustResult ElemList
  | ElemList.nil => RustResult.value ElemList.nil
  | ElemList.cons h tl =>
    (svElem idx strs h).bind fun h2 =>
    (svElems idx strs tl).bind fun t2 => RustResult.value (ElemList.cons h2 t2)

def svOExpr (idx : Index) (strs : List JsWord) : OExpr → RustResult OExpr
  | OExpr.none => RustResult.value OExpr.none
  | OExpr.some e =>
    (svExpr idx strs e).bind fun e2 => RustResult.value (OExpr.some e2)

def svDecl (idx : Index) (strs : List JsWord) : Declarator → RustResult Declarator
  | Declarator.mk name ini =>
    (svOExpr idx strs ini).bind fun i2 => RustResult.value (Declarator.mk name i2)

def svDecls (idx : Index) (strs : List JsWord) : DeclList → RustResult DeclList
  | DeclList.nil => RustResult.value DeclList.nil
  | DeclList.cons d tl =>
    (svDecl idx strs d).bind fun d2 =>
    (svDecls idx strs tl).bind fun t2 => RustResult.value (DeclList.cons d2 t2)

def svStmt (idx : Index) (strs : List JsWord) : Stmt → RustResult Stmt
  | Stmt.exprStmt e =>
    (svExpr idx strs e).bind fun e2 => RustResult.value (Stmt.exprStmt e2)
  | Stmt.varDecl ds =>
    (svDecls idx strs ds).bind fun d2 => RustResult.value (Stmt.varDecl d2)
  | Stmt.fnDecl sym sp ps b =>
    (svStmts idx strs b).bind fun b2 => RustResult.value (Stmt.fnDecl sym sp ps b2)
  | Stmt.retSome e =>
    (svExpr idx strs e).bind fun e2 => RustResult.value (Stmt.retSome e2)
  | Stmt.retNone => RustResult.value Stmt.retNone
  | Stmt.empty => RustResult.value Stmt.empty

def svStmts (idx : Index) (strs : List JsWord) : StmtList → RustResult StmtList
  | StmtList.nil => RustResult.value StmtList.nil
  | StmtList.cons h tl =>
    (svStmt idx strs h).bind fun h2 =>
    (svStmts idx strs tl).bind fun t2 => RustResult.value (StmtList.cons h2 t2)

end

/-- One evaluation of the cloned checksum expression against the
current dictionary (`visit_mut_program`, lines 75 to 103): substitute
the `parseInt` calls in the children of the checksum binary expression,
simplify (the external `expr_simplifier`, a parameter here; the
statement wrapping is identity glue), and compare the resulting numeric
literal with the target using `f64` equality. -/
def checkRotation (simpl : Expr → Expr) (idx : Index) (eop : BinaryOp) (el er : Expr)
    (answer : F64) (D : List JsWord) : RustResult Bool :=
  (svExpr idx D el).bind fun el2 =>
  (svExpr idx D er).bind fun er2 =>
  RustResult.value
    (match simpl (Expr.bin eop el2 er2) with
     | Expr.numLit n => F64.rustEq n answer
     | _ => false)

/-- Result of the phase-F rotation loop. -/
inductive Outcome where
  | matched (D : List JsWord)
  | exhausted
  | emptyStrings
  | panicked
deriving Repr, DecidableEq

/-- The rotation loop of `Visitor::visit_mut_program` (`loop` at lines
75 to 121), written with explicit fuel: evaluate the current
dictionary; on a bit-exact match stop; otherwise move the front
element to the back (an empty deque is the "Obfuscated strings are
empty" error), and when the rotation returns to the original
dictionary report the "Failed to compute obfuscated strings" error. -/
def rotLoop (ev : List JsWord → RustResult Bool) (D0 : List JsWord) :
    Nat → List JsWord → Option Outcome
  | 0, _ => Option.none
  | fuel + 1, D =>
    match ev D with
    | RustResult.panics => Option.some Outcome.panicked
    | RustResult.value true => Option.some (Outcome.matched D)
    | RustResult.value false =>
      match D with
      | [] => Option.some Outcome.emptyStrings
      | x :: rest =>
        let D2 := rest ++ [x]
        if D2 = D0 then Option.some Outcome.exhausted
        else rotLoop ev D0 fuel D2

/-- The full phase-F rotation loop over the checksum data. -/
def stringsLoop (simpl : Expr → Expr) (idx : Index) (eop : BinaryOp) (el er : Expr)
    (answer : F64) (D0 : List JsWord) (fuel : Nat) : Option Outcome :=
  rotLoop (checkRotation simpl idx eop el er answer) D0 fuel D0

/-- The post-children step of `CleanupVisitor::visit_mut_expr`: a call
with a dummy span is taken (becomes `Expr::Invalid`); a call to the
index function whose first argument is a numeric literal is replaced by
the plaintext string when the computed index is supported and in range,
and kept otherwise. -/
def cuStep (fnId : Idn) (idx : Index) (strs : List JsWord) (e : Expr) : RustResult Expr :=
  match e with
  | Expr.call callee args sp =>
    if sp.isDummy then RustResult.value Expr.invalid
    else
      match callee with
      | Expr.identE csym csp =>
        if (csym, csp.ctxt) = fnId then
          match args with
          | ExprList.cons (Expr.numLit v) _ =>
            (get_index (F64.castU32 v) (F64.castU32 idx.offset) idx.op).bind fun oi =>
              RustResult.value
                (match oi with
                 | Option.some i =>
                   match strs.get? i with
                   | Option.some s => Expr.strLit s
                   | Option.none => Expr.call callee args sp
                 | Option.none => Expr.call callee args sp)
          | _ => RustResult.value (Expr.call callee args sp)
        else RustResult.value (Expr.call callee args sp)
      | _ => RustResult.value (Expr.call callee args sp)
  | _ => RustResult.value e

mutual

/-- `CleanupVisitor` over expressions: children first, then `cuStep`. -/
def cuExpr (fnId : Idn) (idx : Index) (strs : List JsWord) : Expr → RustResult Expr
  | Expr.identE sym sp => cuStep fnId idx strs (Expr.identE sym sp)
  | Expr.numLit v => cuStep fnId idx strs (Expr.numLit v)
  | Expr.strLit s => cuStep fnId idx strs (Expr.strLit s)
  | Expr.member obj prop sp =>
    (cuExpr fnId idx strs obj).bind fun o2 =>
    (cuProp fnId idx strs prop).bind fun p2 =>
    cuStep fnId idx strs (Expr.member o2 p2 sp)
  | Expr.call c a sp =>
    (cuExpr fnId idx strs c).bind fun c2 =>
    (cuArgs fnId idx strs a).bind fun a2 =>
    cuStep fnId idx strs (Expr.call c2 a2 sp)
  | Expr.bin op l r =>
    (cuExpr fnId idx strs l).bind fun l2 =>
    (cuExpr fnId idx strs r).bind fun r2 =>
    cuStep fnId idx strs (Expr.bin op l2 r2)
  | Expr.array es =>
    (cuElems fnId idx strs es).bind fun es2 =>
    cuStep fnId idx strs (Expr.array es2)
  | Expr.fnExpr ps b =>
    (cuStmts fnId idx strs b).bind fun b2 =>
    cuStep fnId idx strs (Expr.fnExpr ps b2)
  | Expr.invalid => cuStep fnId idx strs Expr.invalid

def cuProp (fnId : Idn) (idx : Index) (strs : List JsWord) : MemberProp → RustResult MemberProp
  | MemberProp.pIdent s sp => RustResult.value (MemberProp.pIdent s sp)
  | MemberProp.computed e sp =>
    (cuExpr fnId idx strs e).bind fun e2 => RustResult.value (MemberProp.computed e2 sp)

def cuArgs (fnId : Idn) (idx : Index) (strs : List JsWord) : ExprList → RustResult ExprList
  | ExprList.nil => RustResult.value ExprList.nil
  | ExprList.cons e tl =>
    (cuExpr fnId idx strs e).bind fun e2 =>
    (cuArgs fnId idx strs tl).bind fun t2 => RustResult.value (ExprList.cons e2 t2)

def cuElem (fnId : Idn) (idx : Index) (strs : List JsWord) : Elem → RustResult Elem
  | Elem.hole => RustResult.value Elem.hole
  | Elem.elem spread e =>
    (cuExpr fnId idx strs e).bind fun e2 => RustResult.value (Elem.elem spread e2)

def cuElems (fnId : Idn) (idx : Index) (strs : List JsWord) : ElemList → RustResult ElemList
  | ElemList.nil => RustResult.value ElemList.nil
  | ElemList.cons h tl =>
    (cuElem fnId idx strs h).bind fun h2 =>
    (cuElems fnId idx strs tl).bind fun t2 => RustResult.value (ElemList.cons h2 t2)

def cuOExpr (fnId : Idn) (idx : Index) (strs : List JsWord) : OExpr → RustResult OExpr
  | OExpr.none => RustResult.value OExpr.none
  | OExpr.some e =>
    (cuExpr fnId idx strs e).bind fun e2 => RustResult.value (OExpr.some e2)

def cuDecl (fnId : Idn) (idx : Index) (strs : List JsWord) : Declarator → RustResult Declarator
  | Declarator.mk name ini =>
    (cuOExpr fnId idx strs ini).bind fun i2 => RustResult.value (Declarator.mk name i2)

def cuDecls (fnId : Idn) (idx : Index) (strs : List JsWord) : DeclList → RustResult DeclList
  | DeclList.nil => RustResult.value DeclList.nil
  | DeclList.cons d tl =>
    (cuDecl fnId idx strs d).bind fun d2 =>
    (cuDecls fnId idx strs tl).bind fun t2 => RustResult.value (DeclList.cons d2 t2)

/-- `CleanupVisitor::visit_mut_stmt`: children first, then take
expression statements whose expression became invalid and function
declarations whose identifier is dummy. -/
def cuStmt (fnId : Idn) (idx : Index) (strs : List JsWord) : Stmt → RustResult Stmt
  | Stmt.exprStmt e =>
    (cuExpr fnId idx strs e).bind fun e2 =>
      RustResult.value
        (match e2 with
         | Expr.invalid => Stmt.empty
         | e3 => Stmt.exprStmt e3)
  | Stmt.varDecl ds =>
    (cuDecls fnId idx strs ds).bind fun d2 => RustResult.value (Stmt.varDecl d2)
  | Stmt.fnDecl sym sp ps b =>
    if sym = "" ∧ sp = Span.dummy then RustResult.value Stmt.empty
    else (cuStmts fnId idx strs b).bind fun b2 => RustResult.value (Stmt.fnDecl sym sp ps b2)
  | Stmt.retSome e =>
    (cuExpr fnId idx strs e).bind fun e2 => RustResult.value (Stmt.retSome e2)
  | Stmt.retNone => RustResult.value Stmt.retNone
  | Stmt.empty => RustResult.value Stmt.empty

/-- `CleanupVisitor::visit_mut_stmts`: children first, then drop empty
statements. -/
def cuStmts (fnId : Idn) (idx : Index) (strs : List JsWord) : StmtList → RustResult StmtList
  | StmtList.nil => RustResult.value StmtList.nil
  | StmtList.cons h tl =>
    (cuStmt fnId idx strs h).bind fun h2 =>
    (cuStmts fnId idx strs tl).bind fun t2 =>
      RustResult.value
        (match h2 with
         | Stmt.empty => t2
         | h3 => StmtList.cons h3 t2)

end

end So

namespace Me

/-- Abstract interpretations for the `f64` operations of
`math_expr.rs` whose results are not exactly representable as
rationals (transcendental functions, `powf`, `hypot`, the `f32`
rounding of `fround`).  The operations with exact rational semantics
are embedded concretely in `computeCall` below. -/
structure FloatOps where
  acos : F64 → F64
  acosh : F64 → F64
  asin : F64 → F64
  asinh : F64 → F64
  atan : F64 → F64
  atan2 : F64 → F64 → F64
  atanh : F64 → F64
  cbrt : F64 → F64
  cos : F64 → F64
  cosh : F64 → F64
  expOp : F64 → F64
  expm1 : F64 → F64
  fround : F64 → F64
  hypot : F64 → F64 → F64
  log : F64 → F64
  log10 : F64 → F64
  log1p : F64 → F64
  log2 : F64 → F64
  pow : F64 → F64 → F64
  sin : F64 → F64
  sinh : F64 → F64
  sqrt : F64 → F64
  tan : F64 → F64
  tanh : F64 → F64

/-- `math_expr.rs` `get_field`: the `std::f64::consts` table, embedded
as the exact dyadic rationals of the `f64` constants. -/
def getField (field : String) : Option ℚ :=
  match field with
  | "E" => Option.some (6121026514868073 / 2251799813685248 : ℚ)
  | "LN10" => Option.some (2592480341699211 / 1125899906842624 : ℚ)
  | "LN2" => Option.some (6243314768165359 / 9007199254740992 : ℚ)
  | "LOG10E" => Option.some (3911776933737095 / 9007199254740992 : ℚ)
  | "LOG2E" => Option.some (3248660424278399 / 2251799813685248 : ℚ)
  | "PI" => Option.some (884279719003555 / 281474976710656 : ℚ)
  | "SQRT1_2" => Option.some (6369051672525773 / 9007199254740992 : ℚ)
  | "SQRT2" => Option.some (6369051672525773 / 4503599627370496 : ℚ)
  | _ => Option.none

/-- The `get_arg!` macro: the argument at an index, NaN when absent. -/
def getArg (args : List F64) (i : Nat) : F64 :=
  (args.get? i).getD F64.nan

/-- Rust `f64::abs` (exact). -/
def rustAbs (a : F64) : F64 := a.map (fun q => |q|)

/-- Rust `f64::ceil` (exact). -/
def rustCeil (a : F64) : F64 := a.map (fun q => (⌈q⌉ : ℚ))

/-- Rust `f64::floor` (exact). -/
def rustFloor (a : F64) : F64 := a.map (fun q => (⌊q⌋ : ℚ))

/-- Rust `f64::trunc` (exact): round toward zero (`Int.tdiv` truncates). -/
def rustTrunc (a : F64) : F64 := a.map (fun q => ((q.num.tdiv q.den : Int) : ℚ))

/-- Rust `f64::round` (exact): round to the nearest integer, a half-way
value away from zero: `floor (q + 1/2)` for nonnegative `q` and
`ceil (q - 1/2)` for negative `q`. -/
def rustRound (a : F64) : F64 :=
  a.map (fun q => if 0 ≤ q then ((⌊q + 1 / 2⌋ : Int) : ℚ) else ((⌈q - 1 / 2⌉ : Int) : ℚ))

/-- Rust `f64::max`: when one argument is NaN, the other is returned. -/
def rustMax (a b : F64) : F64 :=
  match a, b with
  | Option.none, y => y
  | x, Option.none => x
  | Option.some x, Option.some y => Option.some (max x y)

/-- Rust `f64::min`: when one argument is NaN, the other is returned. -/
def rustMin (a b : F64) : F64 :=
  match a, b with
  | Option.none, y => y
  | x, Option.none => x
  | Option.some x, Option.some y => Option.some (min x y)

/-- The `"sign"` arm of `compute_call`, branch for branch: the
comparison `v == f64::NAN` (false for every `v`), then the sign tests. -/
def signArm (v : F64) : F64 :=
  if F64.rustEq v F64.nan then F64.nan
  else if F64.rustGt v (F64.val 0) then F64.val 1
  else if F64.rustLt v (F64.val 0) then F64.val (-1)
  else F64.val 0

/-- The `"clz32"` arm: leading zeros of the 32-bit twos-complement
pattern of the `as i32` cast. -/
def clz32Arm (v : F64) : F64 :=
  let pattern : Nat := ((F64.castI32 v) % (2 ^ 32 : Int)).toNat
  F64.val (32 - (Nat.log2 pattern + 1) * (if pattern = 0 then 0 else 1) :ℚ)

/-- The `"imul"` arm: product of the `as i32` casts, wrapped into the
`i32` range (release-profile semantics). -/
def imulArm (a b : F64) : F64 :=
  let p : Int := (F64.castI32 a * F64.castI32 b + 2 ^ 31) % 2 ^ 32 - 2 ^ 31
  F64.val (p : ℚ)

/-- `math_expr.rs` `compute_call`: dispatch on the function name in
source order; unknown names give `none`. -/
def computeCall (ops : FloatOps) (fnName : String) (args : List F64) : Option F64 :=
  match fnName with
  | "abs" => Option.some (rustAbs (getArg args 0))
  | "acos" => Option.some (ops.acos (getArg args 0))
  | "acosh" => Option.some (ops.acosh (getArg args 0))
  | "asin" => Option.some (ops.asin (getArg args 0))
  | "asinh" => Option.some (ops.asinh (getArg args 0))
  | "atan" => Option.some (ops.atan (getArg args 0))
  | "atan2" => Option.some (ops.atan2 (getArg args 0) (getArg args 1))
  | "atanh" => Option.some (ops.atanh (getArg args 0))
  | "cbrt" => Option.some (ops.cbrt (getArg args 0))
  | "ceil" => Option.some (rustCeil (getArg args 0))
  | "clz32" => Option.some (clz32Arm (getArg args 0))
  | "cos" => Option.some (ops.cos (getArg args 0))
  | "cosh" => Option.some (ops.cosh (getArg args 0))
  | "exp" => Option.some (ops.expOp (getArg args 0))
  | "expm1" => Option.some (ops.expm1 (getArg args 0))
  | "floor" => Option.some (rustFloor (getArg args 0))
  | "fround" => Option.some (ops.fround (getArg args 0))
  | "hypot" => Option.some (ops.hypot (getArg args 0) (getArg args 1))
  | "imul" => Option.some (imulArm (getArg args 0) (getArg args 1))
  | "log" => Option.some (ops.log (getArg args 0))
  | "log10" => Option.some (ops.log10 (getArg args 0))
  | "log1p" => Option.some (ops.log1p (getArg args 0))
  | "log2" => Option.some (ops.log2 (getArg args 0))
  | "max" => Option.some (rustMax (getArg args 0) (getArg args 1))
  | "min" => Option.some (rustMin (getArg args 0) (getArg args 1))
  | "pow" => Option.some (ops.pow (getArg args 0) (getArg args 1))
  | "round" => Option.some (rustRound (getArg args 0))
  | "sign" => Option.some (signArm (getArg args 0))
  | "sin" => Option.some (ops.sin (getArg args 0))
  | "sinh" => Option.some (ops.sinh (getArg args 0))
  | "sqrt" => Option.some (ops.sqrt (getArg args 0))
  | "tan" => Option.some (ops.tan (getArg args 0))
  | "tanh" => Option.some (ops.tanh (getArg args 0))
  | "trunc" => Option.some (rustTrunc (getArg args 0))
  | _ => Option.none

/-- The guard of `visit_mut_array_lit`
(`if let Some(Some(_)) = array_lit.elems.get(0)`): the first element of
the array literal exists and is not a hole. -/
def firstElemExists : ElemList → Bool
  | ElemList.cons (Elem.elem _ _) _ => true
  | _ => false

/-- State of the `math_expr.rs` `Visitor`. -/
structure MSt where
  input : F64
  inputParam : Option Idn
  isInsideArrayLit : Bool
  isInsideCorrectExpr : Bool
  answer : Option F64
deriving Repr, DecidableEq

/-- `Visitor::new`. -/
def MSt.init (input : F64) : MSt := ⟨input, Option.none, false, false, Option.none⟩

/-- Convert one call argument to an `f64` (`visit_mut_expr`, lines 242
to 271): a numeric literal directly, anything else through the external
simplifier, NaN when it does not simplify to a numeric literal. -/
def argToF64 (simpl : Expr → Expr) (e : Expr) : F64 :=
  match e with
  | Expr.numLit n => n
  | e2 =>
    match simpl e2 with
    | Expr.numLit n => n
    | _ => F64.nan

/-- Convert an argument list. -/
def argsToF64 (simpl : Expr → Expr) : ExprList → List F64
  | ExprList.nil => []
  | ExprList.cons e tl => argToF64 simpl e :: argsToF64 simpl tl

/-- The tail of `visit_mut_expr` (lines 176 to 276), applied after the
children when `is_inside_correct_expr` is set: replace the bound input
parameter, fold `Math` constant fields, and fold `Math` calls.  The
`Math` object is recognised purely by its symbol. -/
def foldStep (simpl : Expr → Expr) (ops : FloatOps) (st : MSt) (e : Expr) : Expr :=
  match e with
  | Expr.identE sym sp =>
    match st.inputParam with
    | Option.some p =>
      if (sym, sp.ctxt) ≠ p then Expr.identE sym sp
      else Expr.numLit st.input
    | Option.none => Expr.identE sym sp
  | Expr.member (Expr.identE osym osp) prop msp =>
    if osym ≠ "Math" then Expr.member (Expr.identE osym osp) prop msp
    else
      match prop with
      | MemberProp.pIdent f fsp =>
        match getField f with
        | Option.some v => Expr.numLit (F64.val v)
        | Option.none => Expr.member (Expr.identE osym osp) (MemberProp.pIdent f fsp) msp
      | p => Expr.member (Expr.identE osym osp) p msp
  | Expr.call (Expr.member (Expr.identE osym osp) prop msp) args csp =>
    if osym ≠ "Math" then Expr.call (Expr.member (Expr.identE osym osp) prop msp) args csp
    else
      match prop with
      | MemberProp.pIdent fnName fsp =>
        match computeCall ops fnName (argsToF64 simpl args) with
        | Option.some r => Expr.numLit r
        | Option.none =>
          Expr.call (Expr.member (Expr.identE osym osp) (MemberProp.pIdent fnName fsp) msp) args csp
      | p => Expr.call (Expr.member (Expr.identE osym osp) p msp) args csp
  | e2 => e2

mutual

/-- `Visitor::visit_mut_expr` of `math_expr.rs`: when inside an array
literal, raise `is_inside_correct_expr`, visit the children, and on the
topmost expression of an element try to record the answer through the
external simplifier; afterwards restore the flag and, when it is still
set, apply the folding tail. -/
def meExpr (simpl : Expr → Expr) (ops : FloatOps) (st : MSt) (e : Expr) : MSt × Expr :=
  let afterChildren : MSt × Expr :=
    if st.isInsideArrayLit then
      let old := st.isInsideCorrectExpr
      let r := meChildren simpl ops { st with isInsideCorrectExpr := true } e
      let r2 : MSt × Expr :=
        if r.1.answer.isNone ∧ r.1.isInsideCorrectExpr ∧ ¬old then
          match simpl r.2 with
          | Expr.numLit n => ({ r.1 with answer := Option.some n }, Expr.numLit n)
          | _ => r
        else r
      ({ r2.1 with isInsideCorrectExpr := old }, r2.2)
    else meChildren simpl ops st e
  if ¬afterChildren.1.isInsideCorrectExpr then afterChildren
  else (afterChildren.1, foldStep simpl ops afterChildren.1 afterChildren.2)
termination_by (sizeOf e, 1)

/-- The children of an expression under the math visitor; array
literals and function expressions go through their overridden visit
methods. -/
def meChildren (simpl : Expr → Expr) (ops : FloatOps) (st : MSt) : Expr → MSt × Expr
  | Expr.identE sym sp => (st, Expr.identE sym sp)
  | Expr.numLit v => (st, Expr.numLit v)
  | Expr.strLit s => (st, Expr.strLit s)
  | Expr.member obj prop sp =>
    let ro := meExpr simpl ops st obj
    let rp := meProp simpl ops ro.1 prop
    (rp.1, Expr.member ro.2 rp.2 sp)
  | Expr.call c a sp =>
    let rc := meExpr simpl ops st c
    let ra := meArgs simpl ops rc.1 a
    (ra.1, Expr.call rc.2 ra.2 sp)
  | Expr.bin op l r =>
    let rl := meExpr simpl ops st l
    let rr := meExpr simpl ops rl.1 r
    (rr.1, Expr.bin op rl.2 rr.2)
  | Expr.array es =>
    let re := meArrayLit simpl ops st es
    (re.1, Expr.array re.2)
  | Expr.fnExpr ps b =>
    let rb := meFnExpr simpl ops st ps b
    (rb.1, Expr.fnExpr ps rb.2)
  | Expr.invalid => (st, Expr.invalid)
termination_by e => (sizeOf e, 0)

/-- `Visitor::visit_mut_fn_expr`: bind the first identifier parameter
as the input parameter when none is bound yet, then visit children. -/
def meFnExpr (simpl : Expr → Expr) (ops : FloatOps) (st : MSt) (ps : List PatName)
    (b : StmtList) : MSt × StmtList :=
  let st1 :=
    if st.inputParam.isNone then
      match ps.head? with
      | Option.some (PatName.pid sym sp) => { st with inputParam := Option.some (sym, sp.ctxt) }
      | _ => st
    else st
  meStmts simpl ops st1 b
termination_by (sizeOf b, 1)

/-- `Visitor::visit_mut_array_lit`: when the first element exists, the
children are visited with `is_inside_array_lit` raised. -/
def meArrayLit (simpl : Expr → Expr) (ops : FloatOps) (st : MSt) (es : ElemList) :
    MSt × ElemList :=
  if firstElemExists es then
    let r := meElems simpl ops { st with isInsideArrayLit := true } es
    ({ r.1 with isInsideArrayLit := st.isInsideArrayLit }, r.2)
  else meElems simpl ops st es
termination_by (sizeOf es, 1)

def meProp (simpl : Expr → Expr) (ops : FloatOps) (st : MSt) : MemberProp → MSt × MemberProp
  | MemberProp.pIdent s sp => (st, MemberProp.pIdent s sp)
  | MemberProp.computed e sp =>
    let re := meExpr simpl ops st e
    (re.1, MemberProp.computed re.2 sp)
termination_by p => (sizeOf p, 0)

def meArgs (simpl : Expr → Expr) (ops : FloatOps) (st : MSt) : ExprList → MSt × ExprList
  | ExprList.nil => (st, ExprList.nil)
  | ExprList.cons e tl =>
    let re := meExpr simpl ops st e
    let rt := meArgs simpl ops re.1 tl
    (rt.1, ExprList.cons re.2 rt.2)
termination_by a => (sizeOf a, 0)

def meElem (simpl : Expr → Expr) (ops : FloatOps) (st : MSt) : Elem → MSt × Elem
  | Elem.hole => (st, Elem.hole)
  | Elem.elem spread e =>
    let re := meExpr simpl ops st e
    (re.1, Elem.elem spread re.2)
termination_by h => (sizeOf h, 0)

def meElems (simpl : Expr → Expr) (ops : FloatOps) (st : MSt) : ElemList → MSt × ElemList
  | ElemList.nil => (st, ElemList.nil)
  | ElemList.cons h tl =>
    let rh := meElem simpl ops st h
    let rt := meElems simpl ops rh.1 tl
    (rt.1, ElemList.cons rh.2 rt.2)
termination_by es2 => (sizeOf es2, 0)

def meOExpr (simpl : Expr → Expr) (ops : FloatOps) (st : MSt) : OExpr → MSt × OExpr
  | OExpr.none => (st, OExpr.none)
  | OExpr.some e =>
    let re := meExpr simpl ops st e
    (re.1, OExpr.some re.2)
termination_by o => (sizeOf o, 0)

def meDecl (simpl : Expr → Expr) (ops : FloatOps) (st : MSt) : Declarator → MSt × Declarator
  | Declarator.mk name ini =>
    let ri := meOExpr simpl ops st ini
    (ri.1, Declarator.mk name ri.2)
termination_by d => (sizeOf d, 0)

def meDecls (simpl : Expr → Expr) (ops : FloatOps) (st : MSt) : DeclList → MSt × DeclList
  | DeclList.nil => (st, DeclList.nil)
  | DeclList.cons d tl =>
    let rd := meDecl simpl ops st d
    let rt := meDecls simpl ops rd.1 tl
    (rt.1, DeclList.cons rd.2 rt.2)
termination_by ds => (sizeOf ds, 0)

def meStmt (simpl : Expr → Expr) (ops : FloatOps) (st : MSt) : Stmt → MSt × Stmt
  | Stmt.exprStmt e =>
    let re := meExpr simpl ops st e
    (re.1, Stmt.exprStmt re.2)
  | Stmt.varDecl ds =>
    let rd := meDecls simpl ops st ds
    (rd.1, Stmt.varDecl rd.2)
  | Stmt.fnDecl sym sp ps b =>
    let rb := meStmts simpl ops st b
    (rb.1, Stmt.fnDecl sym sp ps rb.2)
  | Stmt.retSome e =>
    let re := meExpr simpl ops st e
    (re.1, Stmt.retSome re.2)
  | Stmt.retNone => (st, Stmt.retNone)
  | Stmt.empty => (st, Stmt.empty)
termination_by s2 => (sizeOf s2, 0)

def meStmts (simpl : Expr → Expr) (ops : FloatOps) (st : MSt) : StmtList → MSt × StmtList
  | StmtList.nil => (st, StmtList.nil)
  | StmtList.cons h tl =>
    let rh := meStmt simpl ops st h
    let rt := meStmts simpl ops rh.1 tl
    (rt.1, StmtList.cons rh.2 rt.2)
termination_by ss => (sizeOf ss, 0)

end

/-- The math visitor applied to a whole script: children of the
program with the fresh visitor state; the final state carries the
recorded `answer`. -/
def program (simpl : Expr → Expr) (ops : FloatOps) (input : F64) (prog : Program) :
    MSt × Program :=
  meStmts simpl ops (MSt.init input) prog

end Me

/-- Concatenation of statement lists. -/
def slAppend : StmtList → StmtList → StmtList
  | StmtList.nil, b => b
  | StmtList.cons h tl, b => StmtList.cons h (slAppend tl b)

/-- Identifier occurrence in a binding pattern. -/
def occursPat (v : Idn) : PatName → Bool
  | PatName.pid sym sp => decide ((sym, sp.ctxt) = v)
  | PatName.pInvalid => false

/-- Identifier occurrence in a parameter list. -/
def occursParams (v : Idn) : List PatName → Bool
  | [] => false
  | p :: tl => occursPat v p || occursParams v tl

mutual

/-- Whether an identifier node with the given binding identity occurs
anywhere in an expression (expression identifiers, member-property
identifiers and binding-pattern identifiers all carry `Ident` nodes). -/
def occursExpr (v : Idn) : Expr → Bool
  | Expr.identE sym sp => decide ((sym, sp.ctxt) = v)
  | Expr.numLit _ => false
  | Expr.strLit _ => false
  | Expr.member obj prop _ => occursExpr v obj || occursProp v prop
  | Expr.call c a _ => occursExpr v c || occursArgs v a
  | Expr.bin _ l r => occursExpr v l || occursExpr v r
  | Expr.array es => occursElems v es
  | Expr.fnExpr ps b => occursParams v ps || occursStmts v b
  | Expr.invalid => false

def occursProp (v : Idn) : MemberProp → Bool
  | MemberProp.pIdent sym sp => decide ((sym, sp.ctxt) = v)
  | MemberProp.computed e _ => occursExpr v e

def occursArgs (v : Idn) : ExprList → Bool
  | ExprList.nil => false
  | ExprList.cons e tl => occursExpr v e || occursArgs v tl

def occursElem (v : Idn) : Elem → Bool
  | Elem.hole => false
  | Elem.elem _ e => occursExpr v e

def occursElems (v : Idn) : ElemList → Bool
  | ElemList.nil => false
  | ElemList.cons h tl => occursElem v h || occursElems v tl

def occursOExpr (v : Idn) : OExpr → Bool
  | OExpr.none => false
  | OExpr.some e => occursExpr v e

def occursDecl (v : Idn) : Declarator → Bool
  | Declarator.mk name ini => occursPat v name || occursOExpr v ini

def occursDecls (v : Idn) : DeclList → Bool
  | DeclList.nil => false
  | DeclList.cons d tl => occursDecl v d || occursDecls v tl

def occursStmt (v : Idn) : Stmt → Bool
  | Stmt.exprStmt e => occursExpr v e
  | Stmt.varDecl ds => occursDecls v ds
  | Stmt.fnDecl sym sp ps b =>
    decide ((sym, sp.ctxt) = v) || occursParams v ps || occursStmts v b
  | Stmt.retSome e => occursExpr v e
  | Stmt.retNone => false
  | Stmt.empty => false

def occursStmts (v : Idn) : StmtList → Bool
  | StmtList.nil => false
  | StmtList.cons h tl => occursStmt v h || occursStmts v tl

end

namespace So

/-- A call node that `CleanupVisitor` is able to replace: the callee is
a bare identifier with the index-function identity, the first argument
is a numeric literal, and `get_index` yields an in-range index. -/
def isReplaceableCall (fnId : Idn) (idx : Index) (strs : List JsWord) : Expr → Bool
  | Expr.call (Expr.identE csym csp) (ExprList.cons (Expr.numLit v) _) _ =>
    decide ((csym, csp.ctxt) = fnId) &&
    (match get_index (F64.castU32 v) (F64.castU32 idx.offset) idx.op with
     | RustResult.value (Option.some i) => decide (i < strs.length)
     | _ => false)
  | _ => false

mutual

/-- Whether a replaceable index-function call occurs anywhere in an
expression. -/
def rcExpr (fnId : Idn) (idx : Index) (strs : List JsWord) : Expr → Bool
  | Expr.identE sym sp => isReplaceableCall fnId idx strs (Expr.identE sym sp)
  | Expr.numLit v => isReplaceableCall fnId idx strs (Expr.numLit v)
  | Expr.strLit s => isReplaceableCall fnId idx strs (Expr.strLit s)
  | Expr.member obj prop sp =>
    isReplaceableCall fnId idx strs (Expr.member obj prop sp) ||
    rcExpr fnId idx strs obj || rcProp fnId idx strs prop
  | Expr.call c a sp =>
    isReplaceableCall fnId idx strs (Expr.call c a sp) ||
    rcExpr fnId idx strs c || rcArgs fnId idx strs a
  | Expr.bin op l r =>
    isReplaceableCall fnId idx strs (Expr.bin op l r) ||
    rcExpr fnId idx strs l || rcExpr fnId idx strs r
  | Expr.array es =>
    isReplaceableCall fnId idx strs (Expr.array es) || rcElems fnId idx strs es
  | Expr.fnExpr ps b =>
    isReplaceableCall fnId idx strs (Expr.fnExpr ps b) || rcStmts fnId idx strs b
  | Expr.invalid => isReplaceableCall fnId idx strs Expr.invalid

def rcProp (fnId : Idn) (idx : Index) (strs : List JsWord) : MemberProp → Bool
  | MemberProp.pIdent _ _ => false
  | MemberProp.computed e _ => rcExpr fnId idx strs e

def rcArgs (fnId : Idn) (idx : Index) (strs : List JsWord) : ExprList → Bool
  | ExprList.nil => false
  | ExprList.cons e tl => rcExpr fnId idx strs e || rcArgs fnId idx strs tl

def rcElem (fnId : Idn) (idx : Index) (strs : List JsWord) : Elem → Bool
  | Elem.hole => false
  | Elem.elem _ e => rcExpr fnId idx strs e

def rcElems (fnId : Idn) (idx : Index) (strs : List JsWord) : ElemList → Bool
  | ElemList.nil => false
  | ElemList.cons h tl => rcElem fnId idx strs h || rcElems fnId idx strs tl

def rcOExpr (fnId : Idn) (idx : Index) (strs : List JsWord) : OExpr → Bool
  | OExpr.none => false
  | OExpr.some e => rcExpr fnId idx strs e

def rcDecl (fnId : Idn) (idx : Index) (strs : List JsWord) : Declarator → Bool
  | Declarator.mk _ ini => rcOExpr fnId idx strs ini

def rcDecls (fnId : Idn) (idx : Index) (strs : List JsWord) : DeclList → Bool
  | DeclList.nil => false
  | DeclList.cons d tl => rcDecl fnId idx strs d || rcDecls fnId idx strs tl

def rcStmt (fnId : Idn) (idx : Index) (strs : List JsWord) : Stmt → Bool
  | Stmt.exprStmt e => rcExpr fnId idx strs e
  | Stmt.varDecl ds => rcDecls fnId idx strs ds
  | Stmt.fnDecl _ _ _ b => rcStmts fnId idx strs b
  | Stmt.retSome e => rcExpr fnId idx strs e
  | Stmt.retNone => false
  | Stmt.empty => false

def rcStmts (fnId : Idn) (idx : Index) (strs : List JsWord) : StmtList → Bool
  | StmtList.nil => false
  | StmtList.cons h tl => rcStmt fnId idx strs h || rcStmts fnId idx strs tl

end

end So

/-- A concrete interpretation of the abstract `f64` operations, mapping
everything to NaN; used only to instantiate closed statements. -/
def trivialFloatOps : Me.FloatOps :=
  ⟨fun _ => F64.nan, fun _ => F64.nan, fun _ => F64.nan, fun _ => F64.nan, fun _ => F64.nan,
   fun _ _ => F64.nan, fun _ => F64.nan, fun _ => F64.nan, fun _ => F64.nan, fun _ => F64.nan,
   fun _ => F64.nan, fun _ => F64.nan, fun _ => F64.nan, fun _ _ => F64.nan, fun _ => F64.nan,
   fun _ => F64.nan, fun _ => F64.nan, fun _ => F64.nan, fun _ _ => F64.nan, fun _ => F64.nan,
   fun _ => F64.nan, fun _ => F64.nan, fun _ => F64.nan, fun _ => F64.nan⟩

/-- A script whose producer candidate returns an empty array literal:
`function r() { return []; }`. -/
def emptyDictProgram : Program :=
  StmtList.cons
    (Stmt.fnDecl "r" ⟨1, 1⟩ []
      (StmtList.cons (Stmt.retSome (Expr.array ElemList.nil)) StmtList.nil))
    StmtList.nil

/-- Index data with a zero offset and the division operator. -/
def divZeroIndex : So.Index := ⟨F64.val 0, BinaryOp.div⟩

/-- A checksum term `parseInt(t(3))`, the shape `ExprVisitor` replaces. -/
def parseIntTerm : Expr :=
  Expr.call (Expr.identE "parseInt" ⟨1, 0⟩)
    (ExprList.cons
      (Expr.call (Expr.identE "t" ⟨2, 2⟩)
        (ExprList.cons (Expr.numLit (F64.val 3)) ExprList.nil) ⟨3, 0⟩)
      ExprList.nil) ⟨4, 0⟩

/-- The script `function(Math){ return [0 + Math.PI] }` in which the
single parameter shadowing `Math` is bound as the input parameter. -/
def shadowMathProgram : Program :=
  StmtList.cons
    (Stmt.exprStmt (Expr.fnExpr [PatName.pid "Math" ⟨1, 5⟩]
      (StmtList.cons
        (Stmt.retSome (Expr.array (ElemList.cons (Elem.elem false
          (Expr.bin BinaryOp.add (Expr.numLit (F64.val 0))
            (Expr.member (Expr.identE "Math" ⟨2, 5⟩)
              (MemberProp.pIdent "PI" ⟨3, 0⟩) ⟨4, 0⟩))) ElemList.nil)))
        StmtList.nil)))
    StmtList.nil

/-- Argument expressions made of numeric literals. -/
def numLitArgs : List F64 → ExprList
  | [] => ExprList.nil
  | v :: tl => ExprList.cons (Expr.numLit v) (numLitArgs tl)

/-- The script `r(); var r = c; r(); function c() {}`: a proxy variable
with a reference before and a reference after its declarator. -/
def proxyBeforeAfterProgram : Program :=
  StmtList.cons
    (Stmt.exprStmt (Expr.call (Expr.identE "r" ⟨1, 5⟩) ExprList.nil ⟨10, 0⟩))
    (StmtList.cons
      (Stmt.varDecl (DeclList.cons
        (Declarator.mk (PatName.pid "r" ⟨2, 5⟩)
          (OExpr.some (Expr.identE "c" ⟨3, 1⟩))) DeclList.nil))
      (StmtList.cons
        (Stmt.exprStmt (Expr.call (Expr.identE "r" ⟨5, 5⟩) ExprList.nil ⟨11, 0⟩))
        (StmtList.cons (Stmt.fnDecl "c" ⟨4, 1⟩ [] StmtList.nil)
          StmtList.nil)))

/-- A call to the index function whose argument is not a numeric
literal: `t(k)`. -/
def nonLiteralIndexerCall : Expr :=
  Expr.call (Expr.identE "t" ⟨7, 2⟩)
    (ExprList.cons (Expr.identE "k" ⟨8, 3⟩) ExprList.nil) ⟨9, 0⟩

/-- Whether a symbol starts with `"proxyFn"`, the prefix of every
fresh name generated by the collision renamer. -/
def proxyPrefixed (w : JsWord) : Bool := w.data.take 7 = "proxyFn".data

namespace Pv

/-- A replacement value recorded by the proxy-variable eliminator is
always either a function-declaration identifier or a fresh
`proxyFnN` name. -/
def valOk (F : List Idn) (w : JsWord × Span) : Prop :=
  (w.1, w.2.ctxt) ∈ F ∨ proxyPrefixed w.1 = true

/-- Invariant of the main proxy-variable visitor state: the
pre-computed tables are fixed, every substitution value satisfies
`valOk`, and every rename entry maps a function identity to a fresh
`proxyFnN` name. -/
def StOk (F : List Idn) (H : List (JsWord × Ctxt)) (s : St) : Prop :=
  s.functions = F ∧ s.identifiers = H ∧
  (∀ p ∈ s.replacements, valOk F p.2) ∧
  (∀ q ∈ s.fnReplacements, q.1 ∈ F ∧ proxyPrefixed q.2 = true)

end Pv

/-! Theorems.  Helper lemmas come first, then one theorem (with its
counterexample and witness where applicable) for each claim. -/

/-- Inversion of a successful `RustResult.bind`. -/
theorem RustResult.bind_eq_value {α β : Type} {x : RustResult α} {f : α → RustResult β}
    {b : β} (h : x.bind f = RustResult.value b) :
    ∃ a, x = RustResult.value a ∧ f a = RustResult.value b := by
  cases x with
  | panics => simp [RustResult.bind] at h
  | value a => exact ⟨a, rfl, h⟩

/-- C1 counterexample: the subsequence of AST-rewriting passes applied
by `generate_answer` is not D, E, F, D, G — the computed-member
rewriter does not run before the proxy-variable eliminator, and it runs
only once. -/
theorem c1_pass_order_counterexample :
    rewritingPasses ≠
      [Pass.computedMemberExpr, Pass.proxyVars, Pass.strings,
       Pass.computedMemberExpr, Pass.mathExpr] := by
  decide

/-- C1 (amended): the driver applies the AST-rewriting passes in the
order E, F, D, G — proxy-variable elimination, string deobfuscation,
then a single run of the computed-member rewriter, then the math
evaluator (after the expression simplifier and the resolver). -/
theorem c1_pass_order :
    rewritingPasses =
      [Pass.proxyVars, Pass.strings, Pass.computedMemberExpr, Pass.mathExpr] := by
  decide

/-- C3: `compute_call` on `"sign"` evaluates `Math.sign(NaN)` to `0`,
not NaN: the guard `v == f64::NAN` in the source is false for every
`v`, so the NaN branch is unreachable and the final `0.0` arm is taken.
The same happens for the missing-argument call `Math.sign()`, which the
doc comment of `compute_call` says returns NaN. -/
theorem c3_sign_nan_evaluates_to_zero (ops : Me.FloatOps) :
    Me.computeCall ops "sign" [F64.nan] = Option.some (F64.val 0) ∧
    Me.computeCall ops "sign" [] = Option.some (F64.val 0) ∧
    Me.signArm F64.nan ≠ F64.nan := by
  refine ⟨rfl, rfl, ?_⟩
  decide

/-- C6 counterexample: `get_index` with the division operator and a
zero offset panics (Rust `u32` division by zero panics in every build
profile), so `compute` is not total. -/
theorem c6_get_index_div_zero_panics :
    So.get_index 1 0 BinaryOp.div = RustResult.panics ∧
    So.get_index 1 0 BinaryOp.mod = RustResult.panics := by
  exact ⟨rfl, rfl⟩

/-- C6 (amended): `get_index` returns a value without crashing for
every supported operator and every pair of `u32` operands, except for
division and remainder with a zero offset, which panic; overflowing
additions, subtractions, multiplications and exponentiations wrap
modulo `2 ^ 32` and shift amounts are masked, and a wrong or
out-of-range result merely causes the rotation to continue. -/
theorem c6_get_index_total (i off : Nat) (op : BinaryOp)
    (h : ¬((op = BinaryOp.div ∨ op = BinaryOp.mod) ∧ off = 0)) :
    ∃ r, So.get_index i off op = RustResult.value r := by
  cases op <;> simp only [So.get_index] <;> try exact ⟨_, rfl⟩
  · have : ¬off = 0 := fun he => h ⟨Or.inl rfl, he⟩
    simp [this]
  · have : ¬off = 0 := fun he => h ⟨Or.inr rfl, he⟩
    simp [this]

/-- Witness for `c6_get_index_total` at a concrete input. -/
theorem c6_get_index_total_witness :
    ∃ r, So.get_index 7 0 BinaryOp.add = RustResult.value r :=
  c6_get_index_total 7 0 BinaryOp.add (by decide)

/-- C5 counterexample: on `function r() { return []; }` phase F1 does
find a qualifying producer — the empty array literal qualifies (all
zero of its elements are string literals), so `MissingProducer` is not
reported. -/
theorem c5_empty_dict_producer_found :
    (So.foStmts So.FindObf.init emptyDictProgram).1.fnId = Option.some ("r", 1) ∧
    (So.foStmts So.FindObf.init emptyDictProgram).1.obfStrings = Option.some [] := by
  exact ⟨rfl, rfl⟩

/-- C5 (amended): an empty dictionary is accepted by phase F1 (the
producer is found, with an empty string sequence); the failure instead
surfaces in the rotation loop, which reports the "Obfuscated strings
are empty" error when the evaluation of the empty dictionary does not
match the target. -/
theorem c5_empty_dict_rotation_error :
    (So.foStmts So.FindObf.init emptyDictProgram).1.fnId = Option.some ("r", 1) ∧
    ∀ (ev : List JsWord → RustResult Bool) (fuel : Nat),
      ev [] = RustResult.value false →
      So.rotLoop ev [] (fuel + 1) [] = Option.some So.Outcome.emptyStrings := by
  refine ⟨rfl, fun ev fuel hev => ?_⟩
  simp [So.rotLoop, hev]

/-- Witness for `c5_empty_dict_rotation_error` at a concrete
evaluation function. -/
theorem c5_empty_dict_rotation_error_witness :
    So.rotLoop (fun _ => RustResult.value false) [] 1 [] =
      Option.some So.Outcome.emptyStrings :=
  c5_empty_dict_rotation_error.2 (fun _ => RustResult.value false) 0 rfl

/-- The rotation loop reaches a terminal outcome within the given fuel
whenever some rotation count between `1` and the fuel brings the
dictionary back to the original one. -/
theorem rotLoop_reaches (ev : List JsWord → RustResult Bool) (D0 : List JsWord) :
    ∀ (fuel : Nat) (D : List JsWord), D ≠ [] →
    (∃ k, 1 ≤ k ∧ k ≤ fuel ∧ D.rotate k = D0) →
    ∃ o, So.rotLoop ev D0 fuel D = Option.some o ∧ o ≠ So.Outcome.emptyStrings ∧
      ((∀ E, ev E ≠ RustResult.panics) → o ≠ So.Outcome.panicked)
  | 0, D, _, h => absurd (le_trans h.choose_spec.1 h.choose_spec.2.1) (by omega)
  | fuel + 1, D, hne, h => by
    obtain ⟨k, hk1, hk2, hk3⟩ := h
    cases hev : ev D with
    | panics =>
      refine ⟨So.Outcome.panicked, by simp [So.rotLoop, hev], by simp, ?_⟩
      exact fun hall => absurd hev (hall D)
    | value b =>
      cases b with
      | true =>
        exact ⟨So.Outcome.matched D, by simp [So.rotLoop, hev], by simp, fun _ => by simp⟩
      | false =>
        match D, hne with
        | x :: rest, _ =>
          by_cases hD2 : rest ++ [x] = D0
          · exact ⟨So.Outcome.exhausted, by simp [So.rotLoop, hev, hD2], by simp,
              fun _ => by simp⟩
          · have hk2' : 2 ≤ k := by
              by_contra hlt
              have hk1' : k = 1 := by omega
              apply hD2
              have h1 : (x :: rest).rotate 1 = rest ++ [x] := by
                simpa using List.rotate_cons_succ rest x 0
              rw [← h1, ← hk1']
              exact hk3
            have hrot : (rest ++ [x]).rotate (k - 1) = D0 := by
              have h1 : (x :: rest).rotate 1 = rest ++ [x] := by
                simpa using List.rotate_cons_succ rest x 0
              rw [← h1, List.rotate_rotate]
              have : 1 + (k - 1) = k := by omega
              rw [this]
              exact hk3
            have hne2 : rest ++ [x] ≠ [] := by simp
            obtain ⟨o, ho, hoe, hop⟩ :=
              rotLoop_reaches ev D0 fuel (rest ++ [x]) hne2
                ⟨k - 1, by omega, by omega, hrot⟩
            refine ⟨o, ?_, hoe, hop⟩
            simpa [So.rotLoop, hev, hD2] using ho

/-- C7 counterexample: with division-by-zero index data and a
`parseInt` term in the checksum, the rotation loop neither matches nor
reports `RotationExhausted` — the first evaluation panics inside
`get_index`. -/
theorem c7_rotation_loop_panics :
    So.stringsLoop id divZeroIndex BinaryOp.add parseIntTerm
      (Expr.numLit (F64.val 0)) (F64.val 7) ["5"] 1 =
      Option.some So.Outcome.panicked := by
  decide

/-- C7 (amended): for every non-empty initial dictionary the rotation
loop terminates within `|D0|` evaluations: it stops in MATCH, or
reports the rotation-exhausted error when the rotated deque returns to
`D0`, or propagates a panic of the evaluation (possible only through
`get_index` division or remainder by zero); the empty-deque error is
unreachable, and when the evaluation never panics the original
match-or-exhausted dichotomy holds. -/
theorem c7_rotation_loop_bounded (ev : List JsWord → RustResult Bool)
    (D0 : List JsWord) (h : D0 ≠ []) :
    ∃ o, So.rotLoop ev D0 D0.length D0 = Option.some o ∧
      o ≠ So.Outcome.emptyStrings ∧
      ((∀ E, ev E ≠ RustResult.panics) → o ≠ So.Outcome.panicked) :=
  rotLoop_reaches ev D0 D0.length D0 h
    ⟨D0.length, List.length_pos.mpr h, le_refl _, List.rotate_length D0⟩

/-- Witness for `c7_rotation_loop_bounded` on the concrete checksum
evaluator. -/
theorem c7_rotation_loop_bounded_witness :
    ∃ o, So.rotLoop
      (So.checkRotation id ⟨F64.val 1, BinaryOp.add⟩ BinaryOp.add
        (Expr.numLit (F64.val 1)) (Expr.numLit (F64.val 2)) (F64.val 7))
      ["5", "6"] 2 ["5", "6"] = Option.some o ∧
      o ≠ So.Outcome.emptyStrings ∧
      ((∀ E, So.checkRotation id ⟨F64.val 1, BinaryOp.add⟩ BinaryOp.add
        (Expr.numLit (F64.val 1)) (Expr.numLit (F64.val 2)) (F64.val 7) E ≠
          RustResult.panics) → o ≠ So.Outcome.panicked) :=
  c7_rotation_loop_bounded _ ["5", "6"] (by decide)

/-- The computed-member visitor creates no string literals: its result
is a string literal exactly when its argument already was one. -/
theorem cm_visitExpr_strLit_iff (e : Expr) (s : String) :
    Cm.visitExpr e = Expr.strLit s ↔ e = Expr.strLit s := by
  cases e <;> simp [Cm.visitExpr]

/-- C8 counterexample: the computed key `"foo bar"` is a string literal
whose value is not a valid identifier (it contains a space), yet the
rewriter still converts the member access to a static property — the
source has no identifier-validity check, so such nodes are not left
unchanged. -/
theorem c8_invalid_identifier_rewritten :
    Cm.visitExpr
      (Expr.member (Expr.identE "obj" ⟨1, 0⟩)
        (MemberProp.computed (Expr.strLit "foo bar") ⟨2, 0⟩) ⟨3, 0⟩) =
      Expr.member (Expr.identE "obj" ⟨1, 0⟩)
        (MemberProp.pIdent "foo bar" ⟨2, 0⟩) ⟨3, 0⟩ ∧
    Cm.visitExpr
      (Expr.member (Expr.identE "obj" ⟨1, 0⟩)
        (MemberProp.computed (Expr.strLit "foo bar") ⟨2, 0⟩) ⟨3, 0⟩) ≠
      Expr.member (Expr.identE "obj" ⟨1, 0⟩)
        (MemberProp.computed (Expr.strLit "foo bar") ⟨2, 0⟩) ⟨3, 0⟩ ∧
    ("foo bar".data.any (fun c => decide (c = ' '))) = true := by
  refine ⟨rfl, by decide, by decide⟩

/-- C8 (amended): for every member-access node with a computed key, the
rewriter rewrites the node to a static member access — with the key
string as property symbol and the span of the computed property —
exactly when the key is a string-literal expression, whatever string it
holds (no identifier-validity check); nodes whose key is a non-string
expression keep a computed property (with the key itself rewritten
recursively), and the node span is preserved in both cases. -/
theorem c8_member_rewrite (obj key : Expr) (psp sp : Span) :
    (∀ s, key = Expr.strLit s →
      Cm.visitExpr (Expr.member obj (MemberProp.computed key psp) sp) =
        Expr.member (Cm.visitExpr obj) (MemberProp.pIdent s psp) sp) ∧
    ((∀ s, key ≠ Expr.strLit s) →
      Cm.visitExpr (Expr.member obj (MemberProp.computed key psp) sp) =
        Expr.member (Cm.visitExpr obj) (MemberProp.computed (Cm.visitExpr key) psp) sp) := by
  constructor
  · rintro s rfl
    simp [Cm.visitExpr, Cm.visitProp, Cm.memberStep]
  · intro h
    have hk : ∀ s, Cm.visitExpr key ≠ Expr.strLit s := by
      intro s hc
      exact h s ((cm_visitExpr_strLit_iff key s).mp hc)
    simp only [Cm.visitExpr, Cm.visitProp]
    cases hv : Cm.visitExpr key <;> simp [Cm.memberStep]
    exact absurd hv (hk _)

/-- Witness for `c8_member_rewrite` at concrete inputs. -/
theorem c8_member_rewrite_witness :
    Cm.visitExpr
      (Expr.member (Expr.identE "Math" ⟨1, 0⟩)
        (MemberProp.computed (Expr.strLit "PI") ⟨2, 0⟩) ⟨3, 0⟩) =
      Expr.member (Expr.identE "Math" ⟨1, 0⟩) (MemberProp.pIdent "PI" ⟨2, 0⟩) ⟨3, 0⟩ ∧
    Cm.visitExpr
      (Expr.member (Expr.identE "o" ⟨1, 0⟩)
        (MemberProp.computed (Expr.numLit (F64.val 3)) ⟨2, 0⟩) ⟨3, 0⟩) =
      Expr.member (Expr.identE "o" ⟨1, 0⟩)
        (MemberProp.computed (Expr.numLit (F64.val 3)) ⟨2, 0⟩) ⟨3, 0⟩ :=
  ⟨(c8_member_rewrite (Expr.identE "Math" ⟨1, 0⟩) (Expr.strLit "PI") ⟨2, 0⟩ ⟨3, 0⟩).1
      "PI" rfl,
   (c8_member_rewrite (Expr.identE "o" ⟨1, 0⟩) (Expr.numLit (F64.val 3)) ⟨2, 0⟩ ⟨3, 0⟩).2
      (fun _ h => Expr.noConfusion h)⟩

mutual

/-- After one run of the computed-member visitor no computed property
with a string-literal key remains in an expression. -/
theorem cm_clean_expr : (e : Expr) → Cm.exprClean (Cm.visitExpr e) = true
  | Expr.identE _ _ => by simp [Cm.visitExpr, Cm.exprClean]
  | Expr.numLit _ => by simp [Cm.visitExpr, Cm.exprClean]
  | Expr.strLit _ => by simp [Cm.visitExpr, Cm.exprClean]
  | Expr.member obj prop _ => by
    simp only [Cm.visitExpr, Cm.exprClean, Bool.and_eq_true]
    exact ⟨cm_clean_expr obj, cm_clean_prop prop⟩
  | Expr.call c a _ => by
    simp only [Cm.visitExpr, Cm.exprClean, Bool.and_eq_true]
    exact ⟨cm_clean_expr c, cm_clean_args a⟩
  | Expr.bin _ l r => by
    simp only [Cm.visitExpr, Cm.exprClean, Bool.and_eq_true]
    exact ⟨cm_clean_expr l, cm_clean_expr r⟩
  | Expr.array es => by
    simp only [Cm.visitExpr, Cm.exprClean]
    exact cm_clean_elems es
  | Expr.fnExpr _ b => by
    simp only [Cm.visitExpr, Cm.exprClean]
    exact cm_clean_stmts b
  | Expr.invalid => by simp [Cm.visitExpr, Cm.exprClean]

theorem cm_clean_prop : (p : MemberProp) → Cm.propClean (Cm.memberStep (Cm.visitProp p)) = true
  | MemberProp.pIdent _ _ => by simp [Cm.visitProp, Cm.memberStep, Cm.propClean]
  | MemberProp.computed e sp => by
    have hc := cm_clean_expr e
    simp only [Cm.visitProp]
    cases hv : Cm.visitExpr e <;> rw [hv] at hc <;>
      simp_all [Cm.memberStep, Cm.propClean]

theorem cm_clean_args : (a : ExprList) → Cm.argsClean (Cm.visitArgs a) = true
  | ExprList.nil => by simp [Cm.visitArgs, Cm.argsClean]
  | ExprList.cons e tl => by
    simp only [Cm.visitArgs, Cm.argsClean, Bool.and_eq_true]
    exact ⟨cm_clean_expr e, cm_clean_args tl⟩

theorem cm_clean_elem : (h : Elem) → Cm.elemClean (Cm.visitElem h) = true
  | Elem.hole => by simp [Cm.visitElem, Cm.elemClean]
  | Elem.elem _ e => by
    simp only [Cm.visitElem, Cm.elemClean]
    exact cm_clean_expr e

theorem cm_clean_elems : (es : ElemList) → Cm.elemsClean (Cm.visitElems es) = true
  | ElemList.nil => by simp [Cm.visitElems, Cm.elemsClean]
  | ElemList.cons h tl => by
    simp only [Cm.visitElems, Cm.elemsClean, Bool.and_eq_true]
    exact ⟨cm_clean_elem h, cm_clean_elems tl⟩

theorem cm_clean_oexpr : (o : OExpr) → Cm.oexprClean (Cm.visitOExpr o) = true
  | OExpr.none => by simp [Cm.visitOExpr, Cm.oexprClean]
  | OExpr.some e => by
    simp only [Cm.visitOExpr, Cm.oexprClean]
    exact cm_clean_expr e

theorem cm_clean_decl : (d : Declarator) → Cm.declClean (Cm.visitDecl d) = true
  | Declarator.mk _ ini => by
    simp only [Cm.visitDecl, Cm.declClean]
    exact cm_clean_oexpr ini

theorem cm_clean_decls : (ds : DeclList) → Cm.declsClean (Cm.visitDecls ds) = true
  | DeclList.nil => by simp [Cm.visitDecls, Cm.declsClean]
  | DeclList.cons d tl => by
    simp only [Cm.visitDecls, Cm.declsClean, Bool.and_eq_true]
    exact ⟨cm_clean_decl d, cm_clean_decls tl⟩

theorem cm_clean_stmt : (s : Stmt) → Cm.stmtClean (Cm.visitStmt s) = true
  | Stmt.exprStmt e => by
    simp only [Cm.visitStmt, Cm.stmtClean]
    exact cm_clean_expr e
  | Stmt.varDecl ds => by
    simp only [Cm.visitStmt, Cm.stmtClean]
    exact cm_clean_decls ds
  | Stmt.fnDecl _ _ _ b => by
    simp only [Cm.visitStmt, Cm.stmtClean]
    exact cm_clean_stmts b
  | Stmt.retSome e => by
    simp only [Cm.visitStmt, Cm.stmtClean]
    exact cm_clean_expr e
  | Stmt.retNone => by simp [Cm.visitStmt, Cm.stmtClean]
  | Stmt.empty => by simp [Cm.visitStmt, Cm.stmtClean]

theorem cm_clean_stmts : (ss : StmtList) → Cm.stmtsClean (Cm.visitStmts ss) = true
  | StmtList.nil => by simp [Cm.visitStmts, Cm.stmtsClean]
  | StmtList.cons h tl => by
    simp only [Cm.visitStmts, Cm.stmtsClean, Bool.and_eq_true]
    exact ⟨cm_clean_stmt h, cm_clean_stmts tl⟩

end

/-- `memberStep` leaves a computed property alone when its key is not
a string literal. -/
theorem cm_memberStep_not_strLit (e : Expr) (sp : Span)
    (h : ∀ s, e ≠ Expr.strLit s) :
    Cm.memberStep (MemberProp.computed e sp) = MemberProp.computed e sp := by
  cases e <;> simp [Cm.memberStep]
  exact absurd rfl (h _)

/-- Unfolding a clean computed property: the key is not a string
literal and is itself clean. -/
theorem cm_propClean_computed (e : Expr) (sp : Span)
    (h : Cm.propClean (MemberProp.computed e sp) = true) :
    (∀ s, e ≠ Expr.strLit s) ∧ Cm.exprClean e = true := by
  cases e <;> simp_all [Cm.propClean, Cm.exprClean]

mutual

/-- On an expression with no computed string-literal property, the
computed-member visitor is the identity. -/
theorem cm_id_expr : (e : Expr) → Cm.exprClean e = true → Cm.visitExpr e = e
  | Expr.identE _ _, _ => by simp [Cm.visitExpr]
  | Expr.numLit _, _ => by simp [Cm.visitExpr]
  | Expr.strLit _, _ => by simp [Cm.visitExpr]
  | Expr.member obj prop sp, h => by
    simp only [Cm.exprClean, Bool.and_eq_true] at h
    simp only [Cm.visitExpr]
    rw [cm_id_expr obj h.1, cm_id_prop prop h.2]
  | Expr.call c a sp, h => by
    simp only [Cm.exprClean, Bool.and_eq_true] at h
    simp only [Cm.visitExpr]
    rw [cm_id_expr c h.1, cm_id_args a h.2]
  | Expr.bin op l r, h => by
    simp only [Cm.exprClean, Bool.and_eq_true] at h
    simp only [Cm.visitExpr]
    rw [cm_id_expr l h.1, cm_id_expr r h.2]
  | Expr.array es, h => by
    simp only [Cm.exprClean] at h
    simp only [Cm.visitExpr]
    rw [cm_id_elems es h]
  | Expr.fnExpr ps b, h => by
    simp only [Cm.exprClean] at h
    simp only [Cm.visitExpr]
    rw [cm_id_stmts b h]
  | Expr.invalid, _ => by simp [Cm.visitExpr]

theorem cm_id_prop : (p : MemberProp) → Cm.propClean p = true →
    Cm.memberStep (Cm.visitProp p) = p
  | MemberProp.pIdent _ _, _ => by simp [Cm.visitProp, Cm.memberStep]
  | MemberProp.computed e sp, h => by
    obtain ⟨hne, hce⟩ := cm_propClean_computed e sp h
    simp only [Cm.visitProp]
    rw [cm_id_expr e hce]
    exact cm_memberStep_not_strLit e sp hne

theorem cm_id_args : (a : ExprList) → Cm.argsClean a = true → Cm.visitArgs a = a
  | ExprList.nil, _ => by simp [Cm.visitArgs]
  | ExprList.cons e tl, h => by
    simp only [Cm.argsClean, Bool.and_eq_true] at h
    simp only [Cm.visitArgs]
    rw [cm_id_expr e h.1, cm_id_args tl h.2]

theorem cm_id_elem : (x : Elem) → Cm.elemClean x = true → Cm.visitElem x = x
  | Elem.hole, _ => by simp [Cm.visitElem]
  | Elem.elem spread e, h => by
    simp only [Cm.elemClean] at h
    simp only [Cm.visitElem]
    rw [cm_id_expr e h]

theorem cm_id_elems : (es : ElemList) → Cm.elemsClean es = true → Cm.visitElems es = es
  | ElemList.nil, _ => by simp [Cm.visitElems]
  | ElemList.cons h2 tl, h => by
    simp only [Cm.elemsClean, Bool.and_eq_true] at h
    simp only [Cm.visitElems]
    rw [cm_id_elem h2 h.1, cm_id_elems tl h.2]

theorem cm_id_oexpr : (o : OExpr) → Cm.oexprClean o = true → Cm.visitOExpr o = o
  | OExpr.none, _ => by simp [Cm.visitOExpr]
  | OExpr.some e, h => by
    simp only [Cm.oexprClean] at h
    simp only [Cm.visitOExpr]
    rw [cm_id_expr e h]

theorem cm_id_decl : (d : Declarator) → Cm.declClean d = true → Cm.visitDecl d = d
  | Declarator.mk name ini, h => by
    simp only [Cm.declClean] at h
    simp only [Cm.visitDecl]
    rw [cm_id_oexpr ini h]

theorem cm_id_decls : (ds : DeclList) → Cm.declsClean ds = true → Cm.visitDecls ds = ds
  | DeclList.nil, _ => by simp [Cm.visitDecls]
  | DeclList.cons d tl, h => by
    simp only [Cm.declsClean, Bool.and_eq_true] at h
    simp only [Cm.visitDecls]
    rw [cm_id_decl d h.1, cm_id_decls tl h.2]

theorem cm_id_stmt : (s : Stmt) → Cm.stmtClean s = true → Cm.visitStmt s = s
  | Stmt.exprStmt e, h => by
    simp only [Cm.stmtClean] at h
    simp only [Cm.visitStmt]
    rw [cm_id_expr e h]
  | Stmt.varDecl ds, h => by
    simp only [Cm.stmtClean] at h
    simp only [Cm.visitStmt]
    rw [cm_id_decls ds h]
  | Stmt.fnDecl sym sp ps b, h => by
    simp only [Cm.stmtClean] at h
    simp only [Cm.visitStmt]
    rw [cm_id_stmts b h]
  | Stmt.retSome e, h => by
    simp only [Cm.stmtClean] at h
    simp only [Cm.visitStmt]
    rw [cm_id_expr e h]
  | Stmt.retNone, _ => by simp [Cm.visitStmt]
  | Stmt.empty, _ => by simp [Cm.visitStmt]

theorem cm_id_stmts : (ss : StmtList) → Cm.stmtsClean ss = true → Cm.visitStmts ss = ss
  | StmtList.nil, _ => by simp [Cm.visitStmts]
  | StmtList.cons h2 tl, h => by
    simp only [Cm.stmtsClean, Bool.and_eq_true] at h
    simp only [Cm.visitStmts]
    rw [cm_id_stmt h2 h.1, cm_id_stmts tl h.2]

end

/-- C9: the computed-member rewriter is idempotent — applying the
visitor twice to a script gives the same result as applying it once.
After one run every computed string-literal property has been
rewritten, and on such programs the visitor is the identity. -/
theorem c9_computed_member_idempotent (p : Program) :
    Cm.visitStmts (Cm.visitStmts p) = Cm.visitStmts p :=
  cm_id_stmts (Cm.visitStmts p) (cm_clean_stmts p)

/-- C4 counterexample: a call to the index function whose argument is
an identifier rather than a numeric literal survives the cleanup pass
unchanged, so not every call to the indexer is replaced. -/
theorem c4_nonliteral_call_survives :
    So.cuExpr ("t", 2) ⟨F64.val 1, BinaryOp.add⟩ ["x", "y"] nonLiteralIndexerCall =
      RustResult.value nonLiteralIndexerCall ∧
    nonLiteralIndexerCall =
      Expr.call (Expr.identE "t" ⟨7, 2⟩)
        (ExprList.cons (Expr.identE "k" ⟨8, 3⟩) ExprList.nil) ⟨9, 0⟩ := by
  exact ⟨by decide, rfl⟩

/-- The post-children cleanup step either produces a node with no
replaceable indexer call, or returns the node unchanged, in which case
the node itself is not replaceable. -/
theorem cuStep_rc (fnId : Idn) (idx : So.Index) (strs : List JsWord) (e y : Expr)
    (h : So.cuStep fnId idx strs e = RustResult.value y) :
    So.rcExpr fnId idx strs y = false ∨
      (y = e ∧ So.isReplaceableCall fnId idx strs e = false) := by
  cases e with
  | call callee args sp =>
    simp only [So.cuStep] at h
    by_cases hd : sp.isDummy
    · rw [if_pos hd] at h
      try dsimp only at h
      injection h with h2
      subst h2
      left
      simp [So.rcExpr, So.isReplaceableCall]
    · rw [if_neg hd] at h
      cases callee with
      | identE csym csp =>
        try dsimp only at h
        by_cases hid : (csym, csp.ctxt) = fnId
        · rw [if_pos hid] at h
          cases args with
          | nil =>
            try dsimp only at h
            injection h with h2
            subst h2
            right
            refine ⟨rfl, ?_⟩
            simp [So.isReplaceableCall]
          | cons a0 atl =>
            cases a0 with
            | numLit v =>
              try dsimp only at h
              cases hg : So.get_index (F64.castU32 v) (F64.castU32 idx.offset) idx.op with
              | panics => rw [hg] at h; simp [RustResult.bind] at h
              | value oi =>
                rw [hg] at h
                simp only [RustResult.bind] at h
                cases oi with
                | none =>
                  try dsimp only at h
                  injection h with h2
                  subst h2
                  right
                  refine ⟨rfl, ?_⟩
                  simp [So.isReplaceableCall, hid, hg]
                | some i =>
                  try dsimp only at h
                  cases hs : strs.get? i with
                  | none =>
                    rw [hs] at h
                    try dsimp only at h
                    injection h with h2
                    subst h2
                    right
                    refine ⟨rfl, ?_⟩
                    have hlen : ¬ i < strs.length := by
                      rw [List.get?_eq_none] at hs
                      omega
                    simp [So.isReplaceableCall, hid, hg, hlen]
                  | some s =>
                    rw [hs] at h
                    try dsimp only at h
                    injection h with h2
                    subst h2
                    left
                    simp [So.rcExpr, So.isReplaceableCall]
            | identE s2 sp2 =>
              try dsimp only at h
              injection h with h2
              subst h2
              right
              exact ⟨rfl, by simp [So.isReplaceableCall]⟩
            | strLit s2 =>
              try dsimp only at h
              injection h with h2
              subst h2
              right
              exact ⟨rfl, by simp [So.isReplaceableCall]⟩
            | member o2 p2 sp2 =>
              try dsimp only at h
              injection h with h2
              subst h2
              right
              exact ⟨rfl, by simp [So.isReplaceableCall]⟩
            | call c2 a2 sp2 =>
              try dsimp only at h
              injection h with h2
              subst h2
              right
              exact ⟨rfl, by simp [So.isReplaceableCall]⟩
            | bin op2 l2 r2 =>
              try dsimp only at h
              injection h with h2
              subst h2
              right
              exact ⟨rfl, by simp [So.isReplaceableCall]⟩
            | array es2 =>
              try dsimp only at h
              injection h with h2
              subst h2
              right
              exact ⟨rfl, by simp [So.isReplaceableCall]⟩
            | fnExpr ps2 b2 =>
              try dsimp only at h
              injection h with h2
              subst h2
              right
              exact ⟨rfl, by simp [So.isReplaceableCall]⟩
            | invalid =>
              try dsimp only at h
              injection h with h2
              subst h2
              right
              exact ⟨rfl, by simp [So.isReplaceableCall]⟩
        · rw [if_neg hid] at h
          try dsimp only at h
          injection h with h2
          subst h2
          right
          refine ⟨rfl, ?_⟩
          cases args with
          | nil => simp [So.isReplaceableCall]
          | cons a0 atl =>
            cases a0 <;> simp [So.isReplaceableCall, hid]
      | numLit v =>
        try dsimp only at h
        injection h with h2
        subst h2
        exact Or.inr ⟨rfl, by simp [So.isReplaceableCall]⟩
      | strLit s =>
        try dsimp only at h
        injection h with h2
        subst h2
        exact Or.inr ⟨rfl, by simp [So.isReplaceableCall]⟩
      | member o2 p2 sp2 =>
        try dsimp only at h
        injection h with h2
        subst h2
        exact Or.inr ⟨rfl, by simp [So.isReplaceableCall]⟩
      | call c2 a2 sp2 =>
        try dsimp only at h
        injection h with h2
        subst h2
        exact Or.inr ⟨rfl, by simp [So.isReplaceableCall]⟩
      | bin op2 l2 r2 =>
        try dsimp only at h
        injection h with h2
        subst h2
        exact Or.inr ⟨rfl, by simp [So.isReplaceableCall]⟩
      | array es2 =>
        try dsimp only at h
        injection h with h2
        subst h2
        exact Or.inr ⟨rfl, by simp [So.isReplaceableCall]⟩
      | fnExpr ps2 b2 =>
        try dsimp only at h
        injection h with h2
        subst h2
        exact Or.inr ⟨rfl, by simp [So.isReplaceableCall]⟩
      | invalid =>
        try dsimp only at h
        injection h with h2
        subst h2
        exact Or.inr ⟨rfl, by simp [So.isReplaceableCall]⟩
  | identE sym sp =>
    simp only [So.cuStep] at h
    try dsimp only at h
    injection h with h2
    subst h2
    exact Or.inr ⟨rfl, by simp [So.isReplaceableCall]⟩
  | numLit v =>
    simp only [So.cuStep] at h
    try dsimp only at h
    injection h with h2
    subst h2
    exact Or.inr ⟨rfl, by simp [So.isReplaceableCall]⟩
  | strLit s =>
    simp only [So.cuStep] at h
    try dsimp only at h
    injection h with h2
    subst h2
    exact Or.inr ⟨rfl, by simp [So.isReplaceableCall]⟩
  | member o2 p2 sp2 =>
    simp only [So.cuStep] at h
    try dsimp only at h
    injection h with h2
    subst h2
    exact Or.inr ⟨rfl, by simp [So.isReplaceableCall]⟩
  | bin op2 l2 r2 =>
    simp only [So.cuStep] at h
    try dsimp only at h
    injection h with h2
    subst h2
    exact Or.inr ⟨rfl, by simp [So.isReplaceableCall]⟩
  | array es2 =>
    simp only [So.cuStep] at h
    try dsimp only at h
    injection h with h2
    subst h2
    exact Or.inr ⟨rfl, by simp [So.isReplaceableCall]⟩
  | fnExpr ps2 b2 =>
    simp only [So.cuStep] at h
    try dsimp only at h
    injection h with h2
    subst h2
    exact Or.inr ⟨rfl, by simp [So.isReplaceableCall]⟩
  | invalid =>
    simp only [So.cuStep] at h
    try dsimp only at h
    injection h with h2
    subst h2
    exact Or.inr ⟨rfl, by simp [So.isReplaceableCall]⟩

mutual

/-- After the cleanup pass no replaceable indexer call remains in an
expression. -/
theorem cu_rc_expr (fnId : Idn) (idx : So.Index) (strs : List JsWord) :
    (e y : Expr) → So.cuExpr fnId idx strs e = RustResult.value y →
    So.rcExpr fnId idx strs y = false
  | Expr.identE sym sp, y, h => by
    simp only [So.cuExpr] at h
    rcases cuStep_rc fnId idx strs _ y h with hl | ⟨rfl, _⟩
    · exact hl
    · simp [So.rcExpr, So.isReplaceableCall]
  | Expr.numLit v, y, h => by
    simp only [So.cuExpr] at h
    rcases cuStep_rc fnId idx strs _ y h with hl | ⟨rfl, _⟩
    · exact hl
    · simp [So.rcExpr, So.isReplaceableCall]
  | Expr.strLit s, y, h => by
    simp only [So.cuExpr] at h
    rcases cuStep_rc fnId idx strs _ y h with hl | ⟨rfl, _⟩
    · exact hl
    · simp [So.rcExpr, So.isReplaceableCall]
  | Expr.member obj prop sp, y, h => by
    simp only [So.cuExpr] at h
    obtain ⟨o2, ho, h2⟩ := RustResult.bind_eq_value h
    obtain ⟨p2, hp, h3⟩ := RustResult.bind_eq_value h2
    rcases cuStep_rc fnId idx strs _ y h3 with hl | ⟨rfl, _⟩
    · exact hl
    · have iho := cu_rc_expr fnId idx strs obj o2 ho
      have ihp := cu_rc_prop fnId idx strs prop p2 hp
      simp [So.rcExpr, So.isReplaceableCall, iho, ihp]
  | Expr.call c a sp, y, h => by
    simp only [So.cuExpr] at h
    obtain ⟨c2, hc, h2⟩ := RustResult.bind_eq_value h
    obtain ⟨a2, ha, h3⟩ := RustResult.bind_eq_value h2
    rcases cuStep_rc fnId idx strs _ y h3 with hl | ⟨rfl, hrep⟩
    · exact hl
    · have ihc := cu_rc_expr fnId idx strs c c2 hc
      have iha := cu_rc_args fnId idx strs a a2 ha
      simp [So.rcExpr, hrep, ihc, iha]
  | Expr.bin op l r, y, h => by
    simp only [So.cuExpr] at h
    obtain ⟨l2, hl2, h2⟩ := RustResult.bind_eq_value h
    obtain ⟨r2, hr2, h3⟩ := RustResult.bind_eq_value h2
    rcases cuStep_rc fnId idx strs _ y h3 with hl | ⟨rfl, _⟩
    · exact hl
    · have ihl := cu_rc_expr fnId idx strs l l2 hl2
      have ihr := cu_rc_expr fnId idx strs r r2 hr2
      simp [So.rcExpr, So.isReplaceableCall, ihl, ihr]
  | Expr.array es, y, h => by
    simp only [So.cuExpr] at h
    obtain ⟨es2, hes, h2⟩ := RustResult.bind_eq_value h
    rcases cuStep_rc fnId idx strs _ y h2 with hl | ⟨rfl, _⟩
    · exact hl
    · have ihe := cu_rc_elems fnId idx strs es es2 hes
      simp [So.rcExpr, So.isReplaceableCall, ihe]
  | Expr.fnExpr ps b, y, h => by
    simp only [So.cuExpr] at h
    obtain ⟨b2, hb, h2⟩ := RustResult.bind_eq_value h
    rcases cuStep_rc fnId idx strs _ y h2 with hl | ⟨rfl, _⟩
    · exact hl
    · have ihb := cu_rc_stmts fnId idx strs b b2 hb
      simp [So.rcExpr, So.isReplaceableCall, ihb]
  | Expr.invalid, y, h => by
    simp only [So.cuExpr] at h
    rcases cuStep_rc fnId idx strs _ y h with hl | ⟨rfl, _⟩
    · exact hl
    · simp [So.rcExpr, So.isReplaceableCall]

theorem cu_rc_prop (fnId : Idn) (idx : So.Index) (strs : List JsWord) :
    (p : MemberProp) → (y : MemberProp) → So.cuProp fnId idx strs p = RustResult.value y →
    So.rcProp fnId idx strs y = false
  | MemberProp.pIdent s sp, y, h => by
    simp only [So.cuProp] at h
    injection h with h2
    subst h2
    simp [So.rcProp]
  | MemberProp.computed e sp, y, h => by
    simp only [So.cuProp] at h
    obtain ⟨e2, he, h2⟩ := RustResult.bind_eq_value h
    injection h2 with h3
    subst h3
    have ihe := cu_rc_expr fnId idx strs e e2 he
    simp [So.rcProp, ihe]

theorem cu_rc_args (fnId : Idn) (idx : So.Index) (strs : List JsWord) :
    (a : ExprList) → (y : ExprList) → So.cuArgs fnId idx strs a = RustResult.value y →
    So.rcArgs fnId idx strs y = false
  | ExprList.nil, y, h => by
    simp only [So.cuArgs] at h
    injection h with h2
    subst h2
    simp [So.rcArgs]
  | ExprList.cons e tl, y, h => by
    simp only [So.cuArgs] at h
    obtain ⟨e2, he, h2⟩ := RustResult.bind_eq_value h
    obtain ⟨t2, ht, h3⟩ := RustResult.bind_eq_value h2
    injection h3 with h4
    subst h4
    have ihe := cu_rc_expr fnId idx strs e e2 he
    have iht := cu_rc_args fnId idx strs tl t2 ht
    simp [So.rcArgs, ihe, iht]

theorem cu_rc_elem (fnId : Idn) (idx : So.Index) (strs : List JsWord) :
    (x : Elem) → (y : Elem) → So.cuElem fnId idx strs x = RustResult.value y →
    So.rcElem fnId idx strs y = false
  | Elem.hole, y, h => by
    simp only [So.cuElem] at h
    injection h with h2
    subst h2
    simp [So.rcElem]
  | Elem.elem spread e, y, h => by
    simp only [So.cuElem] at h
    obtain ⟨e2, he, h2⟩ := RustResult.bind_eq_value h
    injection h2 with h3
    subst h3
    have ihe := cu_rc_expr fnId idx strs e e2 he
    simp [So.rcElem, ihe]

theorem cu_rc_elems (fnId : Idn) (idx : So.Index) (strs : List JsWord) :
    (es : ElemList) → (y : ElemList) → So.cuElems fnId idx strs es = RustResult.value y →
    So.rcElems fnId idx strs y = false
  | ElemList.nil, y, h => by
    simp only [So.cuElems] at h
    injection h with h2
    subst h2
    simp [So.rcElems]
  | ElemList.cons x tl, y, h => by
    simp only [So.cuElems] at h
    obtain ⟨x2, hx, h2⟩ := RustResult.bind_eq_value h
    obtain ⟨t2, ht, h3⟩ := RustResult.bind_eq_value h2
    injection h3 with h4
    subst h4
    have ihx := cu_rc_elem fnId idx strs x x2 hx
    have iht := cu_rc_elems fnId idx strs tl t2 ht
    simp [So.rcElems, ihx, iht]

theorem cu_rc_oexpr (fnId : Idn) (idx : So.Index) (strs : List JsWord) :
    (o : OExpr) → (y : OExpr) → So.cuOExpr fnId idx strs o = RustResult.value y →
    So.rcOExpr fnId idx strs y = false
  | OExpr.none, y, h => by
    simp only [So.cuOExpr] at h
    injection h with h2
    subst h2
    simp [So.rcOExpr]
  | OExpr.some e, y, h => by
    simp only [So.cuOExpr] at h
    obtain ⟨e2, he, h2⟩ := RustResult.bind_eq_value h
    injection h2 with h3
    subst h3
    have ihe := cu_rc_expr fnId idx strs e e2 he
    simp [So.rcOExpr, ihe]

theorem cu_rc_decl (fnId : Idn) (idx : So.Index) (strs : List JsWord) :
    (d : Declarator) → (y : Declarator) → So.cuDecl fnId idx strs d = RustResult.value y →
    So.rcDecl fnId idx strs y = false
  | Declarator.mk name ini, y, h => by
    simp only [So.cuDecl] at h
    obtain ⟨i2, hi, h2⟩ := RustResult.bind_eq_value h
    injection h2 with h3
    subst h3
    have ihi := cu_rc_oexpr fnId idx strs ini i2 hi
    simp [So.rcDecl, ihi]

theorem cu_rc_decls (fnId : Idn) (idx : So.Index) (strs : List JsWord) :
    (ds : DeclList) → (y : DeclList) → So.cuDecls fnId idx strs ds = RustResult.value y →
    So.rcDecls fnId idx strs y = false
  | DeclList.nil, y, h => by
    simp only [So.cuDecls] at h
    injection h with h2
    subst h2
    simp [So.rcDecls]
  | DeclList.cons d tl, y, h => by
    simp only [So.cuDecls] at h
    obtain ⟨d2, hd2, h2⟩ := RustResult.bind_eq_value h
    obtain ⟨t2, ht, h3⟩ := RustResult.bind_eq_value h2
    injection h3 with h4
    subst h4
    have ihd := cu_rc_decl fnId idx strs d d2 hd2
    have iht := cu_rc_decls fnId idx strs tl t2 ht
    simp [So.rcDecls, ihd, iht]

theorem cu_rc_stmt (fnId : Idn) (idx : So.Index) (strs : List JsWord) :
    (s : Stmt) → (y : Stmt) → So.cuStmt fnId idx strs s = RustResult.value y →
    So.rcStmt fnId idx strs y = false
  | Stmt.exprStmt e, y, h => by
    simp only [So.cuStmt] at h
    obtain ⟨e2, he, h2⟩ := RustResult.bind_eq_value h
    have ihe := cu_rc_expr fnId idx strs e e2 he
    injection h2 with h3
    subst h3
    cases e2 <;> simp_all [So.rcStmt, So.rcExpr]
  | Stmt.varDecl ds, y, h => by
    simp only [So.cuStmt] at h
    obtain ⟨d2, hd2, h2⟩ := RustResult.bind_eq_value h
    injection h2 with h3
    subst h3
    have ihd := cu_rc_decls fnId idx strs ds d2 hd2
    simp [So.rcStmt, ihd]
  | Stmt.fnDecl sym sp ps b, y, h => by
    simp only [So.cuStmt] at h
    by_cases hdum : sym = "" ∧ sp = Span.dummy
    · rw [if_pos hdum] at h
      injection h with h2
      subst h2
      simp [So.rcStmt]
    · rw [if_neg hdum] at h
      obtain ⟨b2, hb, h2⟩ := RustResult.bind_eq_value h
      injection h2 with h3
      subst h3
      have ihb := cu_rc_stmts fnId idx strs b b2 hb
      simp [So.rcStmt, ihb]
  | Stmt.retSome e, y, h => by
    simp only [So.cuStmt] at h
    obtain ⟨e2, he, h2⟩ := RustResult.bind_eq_value h
    injection h2 with h3
    subst h3
    have ihe := cu_rc_expr fnId idx strs e e2 he
    simp [So.rcStmt, ihe]
  | Stmt.retNone, y, h => by
    simp only [So.cuStmt] at h
    injection h with h2
    subst h2
    simp [So.rcStmt]
  | Stmt.empty, y, h => by
    simp only [So.cuStmt] at h
    injection h with h2
    subst h2
    simp [So.rcStmt]

theorem cu_rc_stmts (fnId : Idn) (idx : So.Index) (strs : List JsWord) :
    (ss : StmtList) → (y : StmtList) → So.cuStmts fnId idx strs ss = RustResult.value y →
    So.rcStmts fnId idx strs y = false
  | StmtList.nil, y, h => by
    simp only [So.cuStmts] at h
    injection h with h2
    subst h2
    simp [So.rcStmts]
  | StmtList.cons s tl, y, h => by
    simp only [So.cuStmts] at h
    obtain ⟨s2, hs2, h2⟩ := RustResult.bind_eq_value h
    obtain ⟨t2, ht, h3⟩ := RustResult.bind_eq_value h2
    injection h3 with h4
    subst h4
    have ihs := cu_rc_stmt fnId idx strs s s2 hs2
    have iht := cu_rc_stmts fnId idx strs tl t2 ht
    cases s2 <;> simp_all [So.rcStmts]

end

/-- C4 (amended): when the cleanup pass completes without panicking,
every call to the indexer function whose argument is a numeric literal
and whose computed index is supported and within the dictionary is
replaced by the literal string; no such replaceable call survives
anywhere in the program.  Calls with other argument shapes, an
unsupported operator, or an out-of-range index are left in place. -/
theorem c4_no_replaceable_indexer_call_survives (fnId : Idn) (idx : So.Index)
    (strs : List JsWord) (prog out : Program)
    (h : So.cuStmts fnId idx strs prog = RustResult.value out) :
    So.rcStmts fnId idx strs out = false :=
  cu_rc_stmts fnId idx strs prog out h

/-- Witness for `c4_no_replaceable_indexer_call_survives` on a script
holding one replaceable indexer call, which the pass replaces by the
plaintext string. -/
theorem c4_no_replaceable_indexer_call_survives_witness :
    So.rcStmts ("t", 2) ⟨F64.val 1, BinaryOp.add⟩ ["x", "y"]
      (StmtList.cons (Stmt.exprStmt (Expr.strLit "y")) StmtList.nil) = false :=
  c4_no_replaceable_indexer_call_survives ("t", 2) ⟨F64.val 1, BinaryOp.add⟩
    ["x", "y"]
    (StmtList.cons (Stmt.exprStmt (Expr.call (Expr.identE "t" ⟨7, 2⟩)
      (ExprList.cons (Expr.numLit (F64.val 0)) ExprList.nil) ⟨9, 0⟩)) StmtList.nil)
    (StmtList.cons (Stmt.exprStmt (Expr.strLit "y")) StmtList.nil)
    (by decide)

/-- Numeric literals pass through the math visitor unchanged inside the
target expression. -/
theorem me_numLit (simpl : Expr → Expr) (ops : Me.FloatOps) (inp : F64) (ip : Option Idn)
    (ans : Option F64) (v : F64) :
    Me.meExpr simpl ops ⟨inp, ip, true, true, ans⟩ (Expr.numLit v) =
      (⟨inp, ip, true, true, ans⟩, Expr.numLit v) := by
  rw [Me.meExpr]
  simp [Me.meChildren, Me.foldStep]

/-- An identifier that is not the bound input parameter passes through
the math visitor unchanged inside the target expression. -/
theorem me_ident_nonparam (simpl : Expr → Expr) (ops : Me.FloatOps) (inp : F64)
    (ip : Option Idn) (ans : Option F64) (sym : JsWord) (sp : Span)
    (h : ip ≠ Option.some (sym, sp.ctxt)) :
    Me.meExpr simpl ops ⟨inp, ip, true, true, ans⟩ (Expr.identE sym sp) =
      (⟨inp, ip, true, true, ans⟩, Expr.identE sym sp) := by
  rw [Me.meExpr]
  simp only [Me.meChildren]
  cases ip with
  | none => simp [Me.foldStep]
  | some p =>
    have hp : ¬((sym, sp.ctxt) = p) := fun he => h (by rw [he])
    simp [Me.foldStep, hp]

/-- A member access `Math.f` with `f` in the constant table folds to
the constant, whatever the syntax context of the `Math` identifier. -/
theorem me_member_math_fold (simpl : Expr → Expr) (ops : Me.FloatOps) (inp : F64)
    (ip : Option Idn) (ans : Option F64) (osp : Span)
    (h3 : ip ≠ Option.some ("Math", osp.ctxt))
    (f : String) (v : ℚ) (fsp msp : Span) (hf : Me.getField f = Option.some v) :
    Me.meExpr simpl ops ⟨inp, ip, true, true, ans⟩
      (Expr.member (Expr.identE "Math" osp) (MemberProp.pIdent f fsp) msp) =
      (⟨inp, ip, true, true, ans⟩, Expr.numLit (F64.val v)) := by
  rw [Me.meExpr]
  simp only [Me.meChildren, me_ident_nonparam simpl ops inp ip ans "Math" osp h3, Me.meProp]
  simp [Me.foldStep, hf]

/-- Numeric-literal argument lists pass through the math visitor
unchanged. -/
theorem me_numLitArgs (simpl : Expr → Expr) (ops : Me.FloatOps) (inp : F64)
    (ip : Option Idn) (ans : Option F64) :
    ∀ vals : List F64,
      Me.meArgs simpl ops ⟨inp, ip, true, true, ans⟩ (numLitArgs vals) =
        (⟨inp, ip, true, true, ans⟩, numLitArgs vals)
  | [] => by simp [numLitArgs, Me.meArgs]
  | v :: tl => by
    simp only [numLitArgs, Me.meArgs, me_numLit, me_numLitArgs simpl ops inp ip ans tl]

/-- `argsToF64` on numeric-literal arguments recovers the values. -/
theorem argsToF64_numLitArgs (simpl : Expr → Expr) :
    ∀ vals : List F64, Me.argsToF64 simpl (numLitArgs vals) = vals
  | [] => by simp [numLitArgs, Me.argsToF64]
  | v :: tl => by
    simp only [numLitArgs, Me.argsToF64, Me.argToF64, argsToF64_numLitArgs simpl tl]

/-- A call `Math.fn(...)` with a supported function name and numeric
arguments folds to the computed result, whatever the syntax context of
the `Math` identifier. -/
theorem me_call_math_fold (simpl : Expr → Expr) (ops : Me.FloatOps) (inp : F64)
    (ip : Option Idn) (ans : Option F64) (osp : Span)
    (h3 : ip ≠ Option.some ("Math", osp.ctxt))
    (fnName : String) (vals : List F64) (r : F64) (fsp msp csp : Span)
    (hnf : Me.getField fnName = Option.none)
    (hc : Me.computeCall ops fnName vals = Option.some r) :
    Me.meExpr simpl ops ⟨inp, ip, true, true, ans⟩
      (Expr.call
        (Expr.member (Expr.identE "Math" osp) (MemberProp.pIdent fnName fsp) msp)
        (numLitArgs vals) csp) =
      (⟨inp, ip, true, true, ans⟩, Expr.numLit r) := by
  have hmem : Me.meExpr simpl ops ⟨inp, ip, true, true, ans⟩
      (Expr.member (Expr.identE "Math" osp) (MemberProp.pIdent fnName fsp) msp) =
      (⟨inp, ip, true, true, ans⟩,
        Expr.member (Expr.identE "Math" osp) (MemberProp.pIdent fnName fsp) msp) := by
    rw [Me.meExpr]
    simp only [Me.meChildren, me_ident_nonparam simpl ops inp ip ans "Math" osp h3, Me.meProp]
    simp [Me.foldStep, hnf]
  rw [Me.meExpr]
  simp only [Me.meChildren, hmem, me_numLitArgs]
  simp [Me.foldStep, argsToF64_numLitArgs, hc]

/-- C10 counterexample: when the first parameter of the outer function is
itself named `Math` (and is therefore bound as the input parameter),
a member access on it is not folded to the Math constant: the object
identifier is first replaced by the input literal, so the member access
`Math.PI` becomes `(2).PI` instead of the value of pi. -/
theorem c10_shadowing_input_param_not_folded :
    (Me.program id trivialFloatOps (F64.val 2) shadowMathProgram).1.inputParam =
      Option.some ("Math", 5) ∧
    (Me.program id trivialFloatOps (F64.val 2) shadowMathProgram).2 =
      StmtList.cons
        (Stmt.exprStmt (Expr.fnExpr [PatName.pid "Math" ⟨1, 5⟩]
          (StmtList.cons
            (Stmt.retSome (Expr.array (ElemList.cons (Elem.elem false
              (Expr.bin BinaryOp.add (Expr.numLit (F64.val 0))
                (Expr.member (Expr.numLit (F64.val 2))
                  (MemberProp.pIdent "PI" ⟨3, 0⟩) ⟨4, 0⟩))) ElemList.nil)))
            StmtList.nil)))
        StmtList.nil := by
  constructor <;>
    simp [shadowMathProgram, Me.program, Me.MSt.init, Me.meStmts, Me.meStmt, Me.meExpr,
      Me.meChildren, Me.meArrayLit, Me.meElems, Me.meElem, Me.meFnExpr, Me.meProp,
      Me.foldStep, Me.firstElemExists, F64.val]

/-- C10 (amended): inside the target expression the math evaluator
recognises the `Math` namespace purely by the symbol of the identifier, not
by binding identity: a member access or call whose object is an
identifier spelled `Math` with any syntax context — including one
shadowing the global `Math` — is folded to the corresponding constant
or function result, except when that identifier is the bound input
parameter itself, in which case it is first replaced by the input
value and no namespace folding happens. -/
theorem c10_math_recognized_by_symbol (simpl : Expr → Expr) (ops : Me.FloatOps)
    (st : Me.MSt) (osp : Span)
    (h1 : st.isInsideArrayLit = true) (h2 : st.isInsideCorrectExpr = true)
    (h3 : st.inputParam ≠ Option.some ("Math", osp.ctxt)) :
    (∀ f v fsp msp, Me.getField f = Option.some v →
      Me.meExpr simpl ops st
        (Expr.member (Expr.identE "Math" osp) (MemberProp.pIdent f fsp) msp) =
        (st, Expr.numLit (F64.val v))) ∧
    (∀ fnName vals r fsp msp csp, Me.getField fnName = Option.none →
      Me.computeCall ops fnName vals = Option.some r →
      Me.meExpr simpl ops st
        (Expr.call
          (Expr.member (Expr.identE "Math" osp) (MemberProp.pIdent fnName fsp) msp)
          (numLitArgs vals) csp) =
        (st, Expr.numLit r)) := by
  obtain ⟨inp, ip, a1, a2, ans⟩ := st
  simp only [Me.MSt.isInsideArrayLit] at h1
  simp only [Me.MSt.isInsideCorrectExpr] at h2
  simp only [Me.MSt.inputParam] at h3
  subst h1
  subst h2
  exact
    ⟨fun f v fsp msp hf => me_member_math_fold simpl ops inp ip ans osp h3 f v fsp msp hf,
     fun fnName vals r fsp msp csp hnf hc =>
       me_call_math_fold simpl ops inp ip ans osp h3 fnName vals r fsp msp csp hnf hc⟩

/-- Witness for `c10_math_recognized_by_symbol`: `Math.PI` with a
shadowing syntax context folds to the exact `f64` value of pi, and
`Math.sign(-3)` folds to `-1`. -/
theorem c10_math_recognized_by_symbol_witness :
    Me.meExpr id trivialFloatOps ⟨F64.val 2, Option.none, true, true, Option.none⟩
      (Expr.member (Expr.identE "Math" ⟨2, 9⟩) (MemberProp.pIdent "PI" ⟨3, 0⟩) ⟨4, 0⟩) =
      (⟨F64.val 2, Option.none, true, true, Option.none⟩,
        Expr.numLit (F64.val (884279719003555 / 281474976710656 : ℚ))) ∧
    Me.meExpr id trivialFloatOps ⟨F64.val 2, Option.none, true, true, Option.none⟩
      (Expr.call
        (Expr.member (Expr.identE "Math" ⟨2, 9⟩) (MemberProp.pIdent "sign" ⟨3, 0⟩) ⟨4, 0⟩)
        (numLitArgs [F64.val (-3)]) ⟨5, 0⟩) =
      (⟨F64.val 2, Option.none, true, true, Option.none⟩,
        Expr.numLit (F64.val (-1))) :=
  ⟨(c10_math_recognized_by_symbol id trivialFloatOps
      ⟨F64.val 2, Option.none, true, true, Option.none⟩ ⟨2, 9⟩ rfl rfl
      (by simp)).1 "PI" (884279719003555 / 281474976710656 : ℚ) ⟨3, 0⟩ ⟨4, 0⟩ rfl,
   (c10_math_recognized_by_symbol id trivialFloatOps
      ⟨F64.val 2, Option.none, true, true, Option.none⟩ ⟨2, 9⟩ rfl rfl
      (by simp)).2 "sign" [F64.val (-3)] (F64.val (-1)) ⟨3, 0⟩ ⟨4, 0⟩ ⟨5, 0⟩
      (by decide) (by decide)⟩
/-- A found entry is a member of the association list. -/
theorem amapFind_mem {α β : Type} [DecidableEq α] :
    ∀ (m : List (α × β)) (k : α) (w : β), amapFind m k = Option.some w → (k, w) ∈ m
  | [], k, w, h => by simp [amapFind] at h
  | (k2, v2) :: tl, k, w, h => by
    simp only [amapFind] at h
    by_cases he : k2 = k
    · rw [if_pos he] at h
      injection h with h2
      subst he
      subst h2
      exact List.mem_cons_self _ _
    · rw [if_neg he] at h
      exact List.mem_cons_of_mem _ (amapFind_mem tl k w h)

/-- Lookup success is preserved when entries are stacked in front. -/
theorem amapFind_append_isSome {α β : Type} [DecidableEq α] (l : List (α × β))
    {m : List (α × β)} {k : α} (h : (amapFind m k).isSome) :
    (amapFind (l ++ m) k).isSome := by
  induction l with
  | nil => simpa using h
  | cons p tl ih =>
    simp only [List.cons_append, amapFind]
    by_cases he : p.1 = k
    · simp [he]
    · simpa [he] using ih

/-- Every generated `proxyFn` name carries the `proxyFn` prefix. -/
theorem proxyPrefixed_append (s : String) :
    proxyPrefixed ("proxyFn" ++ s) = true := by
  have hd : ("proxyFn" ++ s).data = "proxyFn".data ++ s.data := rfl
  simp only [proxyPrefixed, hd]
  rw [show (7 : Nat) = ("proxyFn".data).length from rfl, List.take_left]
  simp

/-- Inside the main proxy-variable pass, once a substitution for `v`
is recorded, no identifier the pass emits has identity `v` (for `v`
outside the function table and without the `proxyFn` prefix). -/
theorem mvIdent_ne_v {F : List Idn} {H : List (JsWord × Ctxt)} {s : Pv.St} {v : Idn}
    (hok : Pv.StOk F H s) (hv : (amapFind s.replacements v).isSome)
    (hv1 : v ∉ F) (hv2 : proxyPrefixed v.1 = false) (sym : JsWord) (sp : Span) :
    ((Pv.mvIdent s sym sp).1, (Pv.mvIdent s sym sp).2.ctxt) ≠ v := by
  unfold Pv.mvIdent
  cases hf : amapFind s.replacements (sym, sp.ctxt) with
  | some r =>
    dsimp only
    have hmem := amapFind_mem _ _ _ hf
    have hok2 := hok.2.2.1 _ hmem
    simp only [Pv.valOk] at hok2
    intro he
    rcases hok2 with hF | hpre
    · exact hv1 (he ▸ hF)
    · have h1 : r.1 = v.1 := congrArg Prod.fst he
      rw [h1] at hpre
      simp [hpre] at hv2
  | none =>
    dsimp only
    intro he
    rw [he] at hf
    rw [hf] at hv
    simp at hv

/-- The declarator step preserves the state invariant and only grows
the substitution table. -/
theorem declStep_state {F : List Idn} {H : List (JsWord × Ctxt)} {s : Pv.St}
    (hok : Pv.StOk F H s) (name : PatName) (ini : OExpr) :
    Pv.StOk F H (Pv.declStep s name ini).1 ∧
    ∃ l, (Pv.declStep s name ini).1.replacements = l ++ s.replacements := by
  obtain ⟨h1, h2, h3, h4⟩ := hok
  cases name with
  | pInvalid =>
    cases ini with
    | none => exact ⟨⟨h1, h2, h3, h4⟩, [], rfl⟩
    | some e => cases e <;> exact ⟨⟨h1, h2, h3, h4⟩, [], rfl⟩
  | pid vsym vsp =>
    cases ini with
    | none => exact ⟨⟨h1, h2, h3, h4⟩, [], rfl⟩
    | some e =>
      cases e with
      | identE fsym fsp =>
        simp only [Pv.declStep]
        by_cases hmem : (fsym, fsp.ctxt) ∈ s.functions
        · rw [if_pos hmem]
          cases hfind : amapFind s.identifiers fsym with
          | some highest =>
            dsimp only
            by_cases hcol : fsp.ctxt < highest
            · rw [if_pos hcol]
              dsimp only
              refine ⟨⟨h1, h2, ?_, ?_⟩, [((vsym, vsp.ctxt),
                ("proxyFn" ++ toString s.newNameCounter, fsp))], rfl⟩
              · intro p hp
                rcases List.mem_cons.mp hp with rfl | hp2
                · exact Or.inr (proxyPrefixed_append _)
                · exact h3 p hp2
              · intro q hq
                rcases List.mem_cons.mp hq with rfl | hq2
                · exact ⟨h1 ▸ hmem, proxyPrefixed_append _⟩
                · exact h4 q hq2
            · rw [if_neg hcol]
              dsimp only
              refine ⟨⟨h1, h2, ?_, h4⟩, [((vsym, vsp.ctxt), (fsym, fsp))], rfl⟩
              intro p hp
              rcases List.mem_cons.mp hp with rfl | hp2
              · exact Or.inl (h1 ▸ hmem)
              · exact h3 p hp2
          | none =>
            dsimp only
            refine ⟨⟨h1, h2, ?_, h4⟩, [((vsym, vsp.ctxt), (fsym, fsp))], rfl⟩
            intro p hp
            rcases List.mem_cons.mp hp with rfl | hp2
            · exact Or.inl (h1 ▸ hmem)
            · exact h3 p hp2
        · rw [if_neg hmem]
          exact ⟨⟨h1, h2, h3, h4⟩, [], rfl⟩
      | numLit val => exact ⟨⟨h1, h2, h3, h4⟩, [], rfl⟩
      | strLit st2 => exact ⟨⟨h1, h2, h3, h4⟩, [], rfl⟩
      | member o2 p2 sp2 => exact ⟨⟨h1, h2, h3, h4⟩, [], rfl⟩
      | call c2 a2 sp2 => exact ⟨⟨h1, h2, h3, h4⟩, [], rfl⟩
      | bin op2 l2 r2 => exact ⟨⟨h1, h2, h3, h4⟩, [], rfl⟩
      | array es2 => exact ⟨⟨h1, h2, h3, h4⟩, [], rfl⟩
      | fnExpr ps2 b2 => exact ⟨⟨h1, h2, h3, h4⟩, [], rfl⟩
      | invalid => exact ⟨⟨h1, h2, h3, h4⟩, [], rfl⟩

/-- Growth of an association list composes. -/
theorem suffix_trans {α : Type} {a b c : List α} (l1 l2 : List α)
    (h1 : b = l1 ++ a) (h2 : c = l2 ++ b) : c = (l2 ++ l1) ++ a := by
  subst h1
  subst h2
  rw [List.append_assoc]

mutual

theorem mvA_expr {F : List Idn} {H : List (JsWord × Ctxt)} :
    ∀ (e : Expr) (s : Pv.St), Pv.StOk F H s →
    Pv.StOk F H (Pv.mvExpr s e).1 ∧
      ∃ l, (Pv.mvExpr s e).1.replacements = l ++ s.replacements
  | Expr.identE sym sp, s, hok => ⟨hok, [], rfl⟩
  | Expr.numLit v2, s, hok => ⟨hok, [], rfl⟩
  | Expr.strLit s2, s, hok => ⟨hok, [], rfl⟩
  | Expr.member obj prop sp, s, hok => by
    obtain ⟨ha1, l1, he1⟩ := mvA_expr obj s hok
    obtain ⟨ha2, l2, he2⟩ := mvA_prop prop _ ha1
    exact ⟨ha2, l2 ++ l1, suffix_trans l1 l2 he1 he2⟩
  | Expr.call c a sp, s, hok => by
    obtain ⟨ha1, l1, he1⟩ := mvA_expr c s hok
    obtain ⟨ha2, l2, he2⟩ := mvA_args a _ ha1
    exact ⟨ha2, l2 ++ l1, suffix_trans l1 l2 he1 he2⟩
  | Expr.bin op l r, s, hok => by
    obtain ⟨ha1, l1, he1⟩ := mvA_expr l s hok
    obtain ⟨ha2, l2, he2⟩ := mvA_expr r _ ha1
    exact ⟨ha2, l2 ++ l1, suffix_trans l1 l2 he1 he2⟩
  | Expr.array es, s, hok => by
    obtain ⟨ha1, l1, he1⟩ := mvA_elems es s hok
    exact ⟨ha1, l1, he1⟩
  | Expr.fnExpr ps b, s, hok => by
    obtain ⟨ha1, l1, he1⟩ := mvA_stmts b s hok
    exact ⟨ha1, l1, he1⟩
  | Expr.invalid, s, hok => ⟨hok, [], rfl⟩

theorem mvA_prop {F : List Idn} {H : List (JsWord × Ctxt)} :
    ∀ (p : MemberProp) (s : Pv.St), Pv.StOk F H s →
    Pv.StOk F H (Pv.mvProp s p).1 ∧
      ∃ l, (Pv.mvProp s p).1.replacements = l ++ s.replacements
  | MemberProp.pIdent sym sp, s, hok => ⟨hok, [], rfl⟩
  | MemberProp.computed e sp, s, hok => by
    obtain ⟨ha1, l1, he1⟩ := mvA_expr e s hok
    exact ⟨ha1, l1, he1⟩

theorem mvA_args {F : List Idn} {H : List (JsWord × Ctxt)} :
    ∀ (a : ExprList) (s : Pv.St), Pv.StOk F H s →
    Pv.StOk F H (Pv.mvArgs s a).1 ∧
      ∃ l, (Pv.mvArgs s a).1.replacements = l ++ s.replacements
  | ExprList.nil, s, hok => ⟨hok, [], rfl⟩
  | ExprList.cons e tl, s, hok => by
    obtain ⟨ha1, l1, he1⟩ := mvA_expr e s hok
    obtain ⟨ha2, l2, he2⟩ := mvA_args tl _ ha1
    exact ⟨ha2, l2 ++ l1, suffix_trans l1 l2 he1 he2⟩

theorem mvA_elem {F : List Idn} {H : List (JsWord × Ctxt)} :
    ∀ (x : Elem) (s : Pv.St), Pv.StOk F H s →
    Pv.StOk F H (Pv.mvElem s x).1 ∧
      ∃ l, (Pv.mvElem s x).1.replacements = l ++ s.replacements
  | Elem.hole, s, hok => ⟨hok, [], rfl⟩
  | Elem.elem spread e, s, hok => by
    obtain ⟨ha1, l1, he1⟩ := mvA_expr e s hok
    exact ⟨ha1, l1, he1⟩

theorem mvA_elems {F : List Idn} {H : List (JsWord × Ctxt)} :
    ∀ (es : ElemList) (s : Pv.St), Pv.StOk F H s →
    Pv.StOk F H (Pv.mvElems s es).1 ∧
      ∃ l, (Pv.mvElems s es).1.replacements = l ++ s.replacements
  | ElemList.nil, s, hok => ⟨hok, [], rfl⟩
  | ElemList.cons x tl, s, hok => by
    obtain ⟨ha1, l1, he1⟩ := mvA_elem x s hok
    obtain ⟨ha2, l2, he2⟩ := mvA_elems tl _ ha1
    exact ⟨ha2, l2 ++ l1, suffix_trans l1 l2 he1 he2⟩

theorem mvA_oexpr {F : List Idn} {H : List (JsWord × Ctxt)} :
    ∀ (o : OExpr) (s : Pv.St), Pv.StOk F H s →
    Pv.StOk F H (Pv.mvOExpr s o).1 ∧
      ∃ l, (Pv.mvOExpr s o).1.replacements = l ++ s.replacements
  | OExpr.none, s, hok => ⟨hok, [], rfl⟩
  | OExpr.some e, s, hok => by
    obtain ⟨ha1, l1, he1⟩ := mvA_expr e s hok
    exact ⟨ha1, l1, he1⟩

theorem mvA_decl {F : List Idn} {H : List (JsWord × Ctxt)} :
    ∀ (d : Declarator) (s : Pv.St), Pv.StOk F H s →
    Pv.StOk F H (Pv.mvDecl s d).1 ∧
      ∃ l, (Pv.mvDecl s d).1.replacements = l ++ s.replacements
  | Declarator.mk name ini, s, hok => by
    obtain ⟨ha1, l1, he1⟩ := mvA_oexpr ini s hok
    obtain ⟨ha2, l2, he2⟩ :=
      declStep_state ha1 (Pv.mvPat s name) (Pv.mvOExpr s ini).2
    exact ⟨ha2, l2 ++ l1, suffix_trans l1 l2 he1 he2⟩

theorem mvA_decls {F : List Idn} {H : List (JsWord × Ctxt)} :
    ∀ (ds : DeclList) (s : Pv.St), Pv.StOk F H s →
    Pv.StOk F H (Pv.mvDecls s ds).1 ∧
      ∃ l, (Pv.mvDecls s ds).1.replacements = l ++ s.replacements
  | DeclList.nil, s, hok => ⟨hok, [], rfl⟩
  | DeclList.cons d tl, s, hok => by
    obtain ⟨ha1, l1, he1⟩ := mvA_decl d s hok
    obtain ⟨ha2, l2, he2⟩ := mvA_decls tl _ ha1
    have hsuf := suffix_trans l1 l2 he1 he2
    simp only [Pv.mvDecls]
    rcases hd : (Pv.mvDecl s d).2 with ⟨name2, ini2⟩
    cases name2 <;> exact ⟨ha2, l2 ++ l1, hsuf⟩

theorem mvA_stmt {F : List Idn} {H : List (JsWord × Ctxt)} :
    ∀ (st : Stmt) (s : Pv.St), Pv.StOk F H s →
    Pv.StOk F H (Pv.mvStmt s st).1 ∧
      ∃ l, (Pv.mvStmt s st).1.replacements = l ++ s.replacements
  | Stmt.exprStmt e, s, hok => by
    obtain ⟨ha1, l1, he1⟩ := mvA_expr e s hok
    exact ⟨ha1, l1, he1⟩
  | Stmt.varDecl ds, s, hok => by
    obtain ⟨ha1, l1, he1⟩ := mvA_decls ds s hok
    simp only [Pv.mvStmt]
    cases hd : (Pv.mvDecls s ds).2 <;> exact ⟨ha1, l1, he1⟩
  | Stmt.fnDecl sym sp ps b, s, hok => by
    obtain ⟨ha1, l1, he1⟩ := mvA_stmts b s hok
    exact ⟨ha1, l1, he1⟩
  | Stmt.retSome e, s, hok => by
    obtain ⟨ha1, l1, he1⟩ := mvA_expr e s hok
    exact ⟨ha1, l1, he1⟩
  | Stmt.retNone, s, hok => ⟨hok, [], rfl⟩
  | Stmt.empty, s, hok => ⟨hok, [], rfl⟩

theorem mvA_stmts {F : List Idn} {H : List (JsWord × Ctxt)} :
    ∀ (ss : StmtList) (s : Pv.St), Pv.StOk F H s →
    Pv.StOk F H (Pv.mvStmts s ss).1 ∧
      ∃ l, (Pv.mvStmts s ss).1.replacements = l ++ s.replacements
  | StmtList.nil, s, hok => ⟨hok, [], rfl⟩
  | StmtList.cons st tl, s, hok => by
    obtain ⟨ha1, l1, he1⟩ := mvA_stmt st s hok
    obtain ⟨ha2, l2, he2⟩ := mvA_stmts tl _ ha1
    exact ⟨ha2, l2 ++ l1, suffix_trans l1 l2 he1 he2⟩

end

/-- A successful lookup stays successful as the table grows. -/
theorem lookup_grow {v : Idn} {s s2 : Pv.St}
    (hv : (amapFind s.replacements v).isSome)
    (hsuf : ∃ l, s2.replacements = l ++ s.replacements) :
    (amapFind s2.replacements v).isSome := by
  obtain ⟨l, hl⟩ := hsuf
  rw [hl]
  exact amapFind_append_isSome l hv

theorem mvB_pat {F : List Idn} {H : List (JsWord × Ctxt)} {s : Pv.St} {v : Idn}
    (hok : Pv.StOk F H s) (hv : (amapFind s.replacements v).isSome)
    (hv1 : v ∉ F) (hv2 : proxyPrefixed v.1 = false) :
    ∀ p : PatName, occursPat v (Pv.mvPat s p) = false
  | PatName.pid sym sp => by
    simp only [Pv.mvPat, occursPat]
    exact decide_eq_false (mvIdent_ne_v hok hv hv1 hv2 sym sp)
  | PatName.pInvalid => rfl

theorem mvB_params {F : List Idn} {H : List (JsWord × Ctxt)} {s : Pv.St} {v : Idn}
    (hok : Pv.StOk F H s) (hv : (amapFind s.replacements v).isSome)
    (hv1 : v ∉ F) (hv2 : proxyPrefixed v.1 = false) :
    ∀ ps : List PatName, occursParams v (Pv.mvParams s ps) = false
  | [] => rfl
  | p :: tl => by
    simp only [Pv.mvParams, occursParams, Bool.or_eq_false_iff]
    exact ⟨mvB_pat hok hv hv1 hv2 p, mvB_params hok hv hv1 hv2 tl⟩

/-- The declarator step emits no identifier with identity `v` when its
(already visited) name and initializer contain none. -/
theorem declStep_occurs {v : Idn} (s : Pv.St) (name : PatName) (ini : OExpr)
    (hn : occursPat v name = false) (hi : occursOExpr v ini = false) :
    occursDecl v (Pv.declStep s name ini).2 = false := by
  cases name with
  | pInvalid =>
    cases ini with
    | none => simp [Pv.declStep, occursDecl, hn, hi]
    | some e => cases e <;> simp_all [Pv.declStep, occursDecl]
  | pid vsym vsp =>
    cases ini with
    | none => simp_all [Pv.declStep, occursDecl]
    | some e =>
      cases e with
      | identE fsym fsp =>
        simp only [Pv.declStep]
        by_cases hmem : (fsym, fsp.ctxt) ∈ s.functions
        · rw [if_pos hmem]
          cases hfind : amapFind s.identifiers fsym with
          | some highest =>
            dsimp only
            simp_all [occursDecl, occursPat, occursOExpr, occursExpr]
          | none =>
            dsimp only
            simp_all [occursDecl, occursPat, occursOExpr, occursExpr]
        · rw [if_neg hmem]
          simp_all [occursDecl]
      | numLit val => simp_all [Pv.declStep, occursDecl]
      | strLit st2 => simp_all [Pv.declStep, occursDecl]
      | member o2 p2 sp2 => simp_all [Pv.declStep, occursDecl]
      | call c2 a2 sp2 => simp_all [Pv.declStep, occursDecl]
      | bin op2 l2 r2 => simp_all [Pv.declStep, occursDecl]
      | array es2 => simp_all [Pv.declStep, occursDecl]
      | fnExpr ps2 b2 => simp_all [Pv.declStep, occursDecl]
      | invalid => simp_all [Pv.declStep, occursDecl]

mutual

theorem mvB_expr {F : List Idn} {H : List (JsWord × Ctxt)} {v : Idn} :
    ∀ (e : Expr) (s : Pv.St), Pv.StOk F H s →
    (amapFind s.replacements v).isSome → v ∉ F → proxyPrefixed v.1 = false →
    occursExpr v (Pv.mvExpr s e).2 = false
  | Expr.identE sym sp, s, hok, hv, hv1, hv2 => by
    simp only [Pv.mvExpr, occursExpr]
    exact decide_eq_false (mvIdent_ne_v hok hv hv1 hv2 sym sp)
  | Expr.numLit v2, s, hok, hv, hv1, hv2 => rfl
  | Expr.strLit s2, s, hok, hv, hv1, hv2 => rfl
  | Expr.member obj prop sp, s, hok, hv, hv1, hv2 => by
    obtain ⟨ha1, hsuf1⟩ := mvA_expr (F := F) (H := H) obj s hok
    have ih1 := mvB_expr obj s hok hv hv1 hv2
    have ih2 := mvB_prop prop _ ha1 (lookup_grow hv hsuf1) hv1 hv2
    simp only [Pv.mvExpr, occursExpr, Bool.or_eq_false_iff]
    exact ⟨ih1, ih2⟩
  | Expr.call c a sp, s, hok, hv, hv1, hv2 => by
    obtain ⟨ha1, hsuf1⟩ := mvA_expr (F := F) (H := H) c s hok
    have ih1 := mvB_expr c s hok hv hv1 hv2
    have ih2 := mvB_args a _ ha1 (lookup_grow hv hsuf1) hv1 hv2
    simp only [Pv.mvExpr, occursExpr, Bool.or_eq_false_iff]
    exact ⟨ih1, ih2⟩
  | Expr.bin op l r, s, hok, hv, hv1, hv2 => by
    obtain ⟨ha1, hsuf1⟩ := mvA_expr (F := F) (H := H) l s hok
    have ih1 := mvB_expr l s hok hv hv1 hv2
    have ih2 := mvB_expr r _ ha1 (lookup_grow hv hsuf1) hv1 hv2
    simp only [Pv.mvExpr, occursExpr, Bool.or_eq_false_iff]
    exact ⟨ih1, ih2⟩
  | Expr.array es, s, hok, hv, hv1, hv2 => by
    have ih1 := mvB_elems es s hok hv hv1 hv2
    simp only [Pv.mvExpr, occursExpr]
    exact ih1
  | Expr.fnExpr ps b, s, hok, hv, hv1, hv2 => by
    have ihp := mvB_params hok hv hv1 hv2 ps
    have ihb := mvB_stmts b s hok hv hv1 hv2
    simp only [Pv.mvExpr, occursExpr, Bool.or_eq_false_iff]
    exact ⟨ihp, ihb⟩
  | Expr.invalid, s, hok, hv, hv1, hv2 => rfl

theorem mvB_prop {F : List Idn} {H : List (JsWord × Ctxt)} {v : Idn} :
    ∀ (p : MemberProp) (s : Pv.St), Pv.StOk F H s →
    (amapFind s.replacements v).isSome → v ∉ F → proxyPrefixed v.1 = false →
    occursProp v (Pv.mvProp s p).2 = false
  | MemberProp.pIdent sym sp, s, hok, hv, hv1, hv2 => by
    simp only [Pv.mvProp, occursProp]
    exact decide_eq_false (mvIdent_ne_v hok hv hv1 hv2 sym sp)
  | MemberProp.computed e sp, s, hok, hv, hv1, hv2 => by
    have ih := mvB_expr e s hok hv hv1 hv2
    simp only [Pv.mvProp, occursProp]
    exact ih

theorem mvB_args {F : List Idn} {H : List (JsWord × Ctxt)} {v : Idn} :
    ∀ (a : ExprList) (s : Pv.St), Pv.StOk F H s →
    (amapFind s.replacements v).isSome → v ∉ F → proxyPrefixed v.1 = false →
    occursArgs v (Pv.mvArgs s a).2 = false
  | ExprList.nil, s, hok, hv, hv1, hv2 => rfl
  | ExprList.cons e tl, s, hok, hv, hv1, hv2 => by
    obtain ⟨ha1, hsuf1⟩ := mvA_expr (F := F) (H := H) e s hok
    have ih1 := mvB_expr e s hok hv hv1 hv2
    have ih2 := mvB_args tl _ ha1 (lookup_grow hv hsuf1) hv1 hv2
    simp only [Pv.mvArgs, occursArgs, Bool.or_eq_false_iff]
    exact ⟨ih1, ih2⟩

theorem mvB_elem {F : List Idn} {H : List (JsWord × Ctxt)} {v : Idn} :
    ∀ (x : Elem) (s : Pv.St), Pv.StOk F H s →
    (amapFind s.replacements v).isSome → v ∉ F → proxyPrefixed v.1 = false →
    occursElem v (Pv.mvElem s x).2 = false
  | Elem.hole, s, hok, hv, hv1, hv2 => rfl
  | Elem.elem spread e, s, hok, hv, hv1, hv2 => by
    have ih := mvB_expr e s hok hv hv1 hv2
    simp only [Pv.mvElem, occursElem]
    exact ih

theorem mvB_elems {F : List Idn} {H : List (JsWord × Ctxt)} {v : Idn} :
    ∀ (es : ElemList) (s : Pv.St), Pv.StOk F H s →
    (amapFind s.replacements v).isSome → v ∉ F → proxyPrefixed v.1 = false →
    occursElems v (Pv.mvElems s es).2 = false
  | ElemList.nil, s, hok, hv, hv1, hv2 => rfl
  | ElemList.cons x tl, s, hok, hv, hv1, hv2 => by
    obtain ⟨ha1, hsuf1⟩ := mvA_elem (F := F) (H := H) x s hok
    have ih1 := mvB_elem x s hok hv hv1 hv2
    have ih2 := mvB_elems tl _ ha1 (lookup_grow hv hsuf1) hv1 hv2
    simp only [Pv.mvElems, occursElems, Bool.or_eq_false_iff]
    exact ⟨ih1, ih2⟩

theorem mvB_oexpr {F : List Idn} {H : List (JsWord × Ctxt)} {v : Idn} :
    ∀ (o : OExpr) (s : Pv.St), Pv.StOk F H s →
    (amapFind s.replacements v).isSome → v ∉ F → proxyPrefixed v.1 = false →
    occursOExpr v (Pv.mvOExpr s o).2 = false
  | OExpr.none, s, hok, hv, hv1, hv2 => rfl
  | OExpr.some e, s, hok, hv, hv1, hv2 => by
    have ih := mvB_expr e s hok hv hv1 hv2
    simp only [Pv.mvOExpr, occursOExpr]
    exact ih

theorem mvB_decl {F : List Idn} {H : List (JsWord × Ctxt)} {v : Idn} :
    ∀ (d : Declarator) (s : Pv.St), Pv.StOk F H s →
    (amapFind s.replacements v).isSome → v ∉ F → proxyPrefixed v.1 = false →
    occursDecl v (Pv.mvDecl s d).2 = false
  | Declarator.mk name ini, s, hok, hv, hv1, hv2 => by
    have ihn := mvB_pat hok hv hv1 hv2 name
    have ihi := mvB_oexpr ini s hok hv hv1 hv2
    simp only [Pv.mvDecl]
    exact declStep_occurs _ _ _ ihn ihi

theorem mvB_decls {F : List Idn} {H : List (JsWord × Ctxt)} {v : Idn} :
    ∀ (ds : DeclList) (s : Pv.St), Pv.StOk F H s →
    (amapFind s.replacements v).isSome → v ∉ F → proxyPrefixed v.1 = false →
    occursDecls v (Pv.mvDecls s ds).2 = false
  | DeclList.nil, s, hok, hv, hv1, hv2 => rfl
  | DeclList.cons d tl, s, hok, hv, hv1, hv2 => by
    obtain ⟨ha1, hsuf1⟩ := mvA_decl (F := F) (H := H) d s hok
    have ih1 := mvB_decl d s hok hv hv1 hv2
    have ih2 := mvB_decls tl _ ha1 (lookup_grow hv hsuf1) hv1 hv2
    simp only [Pv.mvDecls]
    rcases hd : (Pv.mvDecl s d).2 with ⟨name2, ini2⟩
    rw [hd] at ih1
    cases name2 with
    | pid sym2 sp2 =>
      simp only [occursDecls, Bool.or_eq_false_iff]
      exact ⟨ih1, ih2⟩
    | pInvalid => exact ih2

theorem mvB_stmt {F : List Idn} {H : List (JsWord × Ctxt)} {v : Idn} :
    ∀ (st : Stmt) (s : Pv.St), Pv.StOk F H s →
    (amapFind s.replacements v).isSome → v ∉ F → proxyPrefixed v.1 = false →
    occursStmt v (Pv.mvStmt s st).2 = false
  | Stmt.exprStmt e, s, hok, hv, hv1, hv2 => by
    have ih := mvB_expr e s hok hv hv1 hv2
    simp only [Pv.mvStmt, occursStmt]
    exact ih
  | Stmt.varDecl ds, s, hok, hv, hv1, hv2 => by
    have ih := mvB_decls ds s hok hv hv1 hv2
    simp only [Pv.mvStmt]
    cases hd : (Pv.mvDecls s ds).2 with
    | nil => rfl
    | cons d2 t2 =>
      rw [hd] at ih
      simp only [occursStmt]
      exact ih
  | Stmt.fnDecl sym sp ps b, s, hok, hv, hv1, hv2 => by
    have ihp := mvB_params hok hv hv1 hv2 ps
    have ihb := mvB_stmts b s hok hv hv1 hv2
    simp only [Pv.mvStmt, occursStmt, Bool.or_eq_false_iff]
    exact ⟨⟨decide_eq_false (mvIdent_ne_v hok hv hv1 hv2 sym sp), ihp⟩, ihb⟩
  | Stmt.retSome e, s, hok, hv, hv1, hv2 => by
    have ih := mvB_expr e s hok hv hv1 hv2
    simp only [Pv.mvStmt, occursStmt]
    exact ih
  | Stmt.retNone, s, hok, hv, hv1, hv2 => rfl
  | Stmt.empty, s, hok, hv, hv1, hv2 => rfl

theorem mvB_stmts {F : List Idn} {H : List (JsWord × Ctxt)} {v : Idn} :
    ∀ (ss : StmtList) (s : Pv.St), Pv.StOk F H s →
    (amapFind s.replacements v).isSome → v ∉ F → proxyPrefixed v.1 = false →
    occursStmts v (Pv.mvStmts s ss).2 = false
  | StmtList.nil, s, hok, hv, hv1, hv2 => rfl
  | StmtList.cons st tl, s, hok, hv, hv1, hv2 => by
    obtain ⟨ha1, hsuf1⟩ := mvA_stmt (F := F) (H := H) st s hok
    have ih1 := mvB_stmt st s hok hv hv1 hv2
    have ih2 := mvB_stmts tl _ ha1 (lookup_grow hv hsuf1) hv1 hv2
    simp only [Pv.mvStmts, occursStmts, Bool.or_eq_false_iff]
    exact ⟨ih1, ih2⟩

end

/-- Removal only drops entries. -/
theorem amapRemove_subset {α β : Type} [DecidableEq α] (m : List (α × β)) (k : α) :
    ∀ q ∈ amapRemove m k, q ∈ m := fun _ hq => List.mem_of_mem_filter hq

mutual

theorem rnC_expr {F : List Idn} {v : Idn} :
    ∀ (e : Expr) (m : List (Idn × JsWord)),
    (∀ q ∈ m, q.1 ∈ F ∧ proxyPrefixed q.2 = true) → v ∉ F → proxyPrefixed v.1 = false →
    (∀ q ∈ (Pv.rnExpr m e).1, q ∈ m) ∧
      occursExpr v (Pv.rnExpr m e).2 = occursExpr v e
  | Expr.identE sym sp, m, hm, hv1, hv2 => ⟨fun q hq => hq, rfl⟩
  | Expr.numLit v2, m, hm, hv1, hv2 => ⟨fun q hq => hq, rfl⟩
  | Expr.strLit s2, m, hm, hv1, hv2 => ⟨fun q hq => hq, rfl⟩
  | Expr.member obj prop sp, m, hm, hv1, hv2 => by
    obtain ⟨hs1, ho1⟩ := rnC_expr obj m hm hv1 hv2
    obtain ⟨hs2, ho2⟩ := rnC_prop prop (Pv.rnExpr m obj).1
      (fun q hq => hm q (hs1 q hq)) hv1 hv2
    refine ⟨fun q hq => hs1 q (hs2 q hq), ?_⟩
    simp only [Pv.rnExpr, occursExpr, ho1, ho2]
  | Expr.call c a sp, m, hm, hv1, hv2 => by
    obtain ⟨hs1, ho1⟩ := rnC_expr c m hm hv1 hv2
    obtain ⟨hs2, ho2⟩ := rnC_args a (Pv.rnExpr m c).1
      (fun q hq => hm q (hs1 q hq)) hv1 hv2
    refine ⟨fun q hq => hs1 q (hs2 q hq), ?_⟩
    simp only [Pv.rnExpr, occursExpr, ho1, ho2]
  | Expr.bin op l r, m, hm, hv1, hv2 => by
    obtain ⟨hs1, ho1⟩ := rnC_expr l m hm hv1 hv2
    obtain ⟨hs2, ho2⟩ := rnC_expr r (Pv.rnExpr m l).1
      (fun q hq => hm q (hs1 q hq)) hv1 hv2
    refine ⟨fun q hq => hs1 q (hs2 q hq), ?_⟩
    simp only [Pv.rnExpr, occursExpr, ho1, ho2]
  | Expr.array es, m, hm, hv1, hv2 => by
    obtain ⟨hs1, ho1⟩ := rnC_elems es m hm hv1 hv2
    exact ⟨hs1, by simp only [Pv.rnExpr, occursExpr, ho1]⟩
  | Expr.fnExpr ps b, m, hm, hv1, hv2 => by
    obtain ⟨hs1, ho1⟩ := rnC_stmts b m hm hv1 hv2
    exact ⟨hs1, by simp only [Pv.rnExpr, occursExpr, ho1]⟩
  | Expr.invalid, m, hm, hv1, hv2 => ⟨fun q hq => hq, rfl⟩

theorem rnC_prop {F : List Idn} {v : Idn} :
    ∀ (p : MemberProp) (m : List (Idn × JsWord)),
    (∀ q ∈ m, q.1 ∈ F ∧ proxyPrefixed q.2 = true) → v ∉ F → proxyPrefixed v.1 = false →
    (∀ q ∈ (Pv.rnProp m p).1, q ∈ m) ∧
      occursProp v (Pv.rnProp m p).2 = occursProp v p
  | MemberProp.pIdent sym sp, m, hm, hv1, hv2 => ⟨fun q hq => hq, rfl⟩
  | MemberProp.computed e sp, m, hm, hv1, hv2 => by
    obtain ⟨hs1, ho1⟩ := rnC_expr e m hm hv1 hv2
    exact ⟨hs1, by simp only [Pv.rnProp, occursProp, ho1]⟩

theorem rnC_args {F : List Idn} {v : Idn} :
    ∀ (a : ExprList) (m : List (Idn × JsWord)),
    (∀ q ∈ m, q.1 ∈ F ∧ proxyPrefixed q.2 = true) → v ∉ F → proxyPrefixed v.1 = false →
    (∀ q ∈ (Pv.rnArgs m a).1, q ∈ m) ∧
      occursArgs v (Pv.rnArgs m a).2 = occursArgs v a
  | ExprList.nil, m, hm, hv1, hv2 => ⟨fun q hq => hq, rfl⟩
  | ExprList.cons e tl, m, hm, hv1, hv2 => by
    obtain ⟨hs1, ho1⟩ := rnC_expr e m hm hv1 hv2
    obtain ⟨hs2, ho2⟩ := rnC_args tl (Pv.rnExpr m e).1
      (fun q hq => hm q (hs1 q hq)) hv1 hv2
    refine ⟨fun q hq => hs1 q (hs2 q hq), ?_⟩
    simp only [Pv.rnArgs, occursArgs, ho1, ho2]

theorem rnC_elem {F : List Idn} {v : Idn} :
    ∀ (x : Elem) (m : List (Idn × JsWord)),
    (∀ q ∈ m, q.1 ∈ F ∧ proxyPrefixed q.2 = true) → v ∉ F → proxyPrefixed v.1 = false →
    (∀ q ∈ (Pv.rnElem m x).1, q ∈ m) ∧
      occursElem v (Pv.rnElem m x).2 = occursElem v x
  | Elem.hole, m, hm, hv1, hv2 => ⟨fun q hq => hq, rfl⟩
  | Elem.elem spread e, m, hm, hv1, hv2 => by
    obtain ⟨hs1, ho1⟩ := rnC_expr e m hm hv1 hv2
    exact ⟨hs1, by simp only [Pv.rnElem, occursElem, ho1]⟩

theorem rnC_elems {F : List Idn} {v : Idn} :
    ∀ (es : ElemList) (m : List (Idn × JsWord)),
    (∀ q ∈ m, q.1 ∈ F ∧ proxyPrefixed q.2 = true) → v ∉ F → proxyPrefixed v.1 = false →
    (∀ q ∈ (Pv.rnElems m es).1, q ∈ m) ∧
      occursElems v (Pv.rnElems m es).2 = occursElems v es
  | ElemList.nil, m, hm, hv1, hv2 => ⟨fun q hq => hq, rfl⟩
  | ElemList.cons x tl, m, hm, hv1, hv2 => by
    obtain ⟨hs1, ho1⟩ := rnC_elem x m hm hv1 hv2
    obtain ⟨hs2, ho2⟩ := rnC_elems tl (Pv.rnElem m x).1
      (fun q hq => hm q (hs1 q hq)) hv1 hv2
    refine ⟨fun q hq => hs1 q (hs2 q hq), ?_⟩
    simp only [Pv.rnElems, occursElems, ho1, ho2]

theorem rnC_oexpr {F : List Idn} {v : Idn} :
    ∀ (o : OExpr) (m : List (Idn × JsWord)),
    (∀ q ∈ m, q.1 ∈ F ∧ proxyPrefixed q.2 = true) → v ∉ F → proxyPrefixed v.1 = false →
    (∀ q ∈ (Pv.rnOExpr m o).1, q ∈ m) ∧
      occursOExpr v (Pv.rnOExpr m o).2 = occursOExpr v o
  | OExpr.none, m, hm, hv1, hv2 => ⟨fun q hq => hq, rfl⟩
  | OExpr.some e, m, hm, hv1, hv2 => by
    obtain ⟨hs1, ho1⟩ := rnC_expr e m hm hv1 hv2
    exact ⟨hs1, by simp only [Pv.rnOExpr, occursOExpr, ho1]⟩

theorem rnC_decl {F : List Idn} {v : Idn} :
    ∀ (d : Declarator) (m : List (Idn × JsWord)),
    (∀ q ∈ m, q.1 ∈ F ∧ proxyPrefixed q.2 = true) → v ∉ F → proxyPrefixed v.1 = false →
    (∀ q ∈ (Pv.rnDecl m d).1, q ∈ m) ∧
      occursDecl v (Pv.rnDecl m d).2 = occursDecl v d
  | Declarator.mk name ini, m, hm, hv1, hv2 => by
    obtain ⟨hs1, ho1⟩ := rnC_oexpr ini m hm hv1 hv2
    exact ⟨hs1, by simp only [Pv.rnDecl, occursDecl, ho1]⟩

theorem rnC_decls {F : List Idn} {v : Idn} :
    ∀ (ds : DeclList) (m : List (Idn × JsWord)),
    (∀ q ∈ m, q.1 ∈ F ∧ proxyPrefixed q.2 = true) → v ∉ F → proxyPrefixed v.1 = false →
    (∀ q ∈ (Pv.rnDecls m ds).1, q ∈ m) ∧
      occursDecls v (Pv.rnDecls m ds).2 = occursDecls v ds
  | DeclList.nil, m, hm, hv1, hv2 => ⟨fun q hq => hq, rfl⟩
  | DeclList.cons d tl, m, hm, hv1, hv2 => by
    obtain ⟨hs1, ho1⟩ := rnC_decl d m hm hv1 hv2
    obtain ⟨hs2, ho2⟩ := rnC_decls tl (Pv.rnDecl m d).1
      (fun q hq => hm q (hs1 q hq)) hv1 hv2
    refine ⟨fun q hq => hs1 q (hs2 q hq), ?_⟩
    simp only [Pv.rnDecls, occursDecls, ho1, ho2]

theorem rnC_stmt {F : List Idn} {v : Idn} :
    ∀ (st : Stmt) (m : List (Idn × JsWord)),
    (∀ q ∈ m, q.1 ∈ F ∧ proxyPrefixed q.2 = true) → v ∉ F → proxyPrefixed v.1 = false →
    (∀ q ∈ (Pv.rnStmt m st).1, q ∈ m) ∧
      occursStmt v (Pv.rnStmt m st).2 = occursStmt v st
  | Stmt.exprStmt e, m, hm, hv1, hv2 => by
    obtain ⟨hs1, ho1⟩ := rnC_expr e m hm hv1 hv2
    exact ⟨hs1, by simp only [Pv.rnStmt, occursStmt, ho1]⟩
  | Stmt.varDecl ds, m, hm, hv1, hv2 => by
    obtain ⟨hs1, ho1⟩ := rnC_decls ds m hm hv1 hv2
    exact ⟨hs1, by simp only [Pv.rnStmt, occursStmt, ho1]⟩
  | Stmt.fnDecl sym sp ps b, m, hm, hv1, hv2 => by
    simp only [Pv.rnStmt]
    cases hf : amapFind m (sym, sp.ctxt) with
    | none => exact ⟨fun q hq => hq, rfl⟩
    | some newName =>
      dsimp only
      have hkey := hm _ (amapFind_mem _ _ _ hf)
      have hold : (decide ((sym, sp.ctxt) = v)) = false := by
        refine decide_eq_false fun he => hv1 ?_
        rw [← he]
        exact hkey.1
      have hnew : (decide ((newName, sp.ctxt) = v)) = false := by
        refine decide_eq_false fun he => ?_
        have h1 : newName = v.1 := congrArg Prod.fst he
        rw [h1] at hkey
        rw [hkey.2] at hv2
        exact Bool.noConfusion hv2
      by_cases hemp : (amapRemove m (sym, sp.ctxt)).isEmpty
      · rw [if_pos hemp]
        refine ⟨fun q hq => amapRemove_subset m _ q hq, ?_⟩
        simp only [occursStmt, hold, hnew]
      · rw [if_neg hemp]
        obtain ⟨hs1, ho1⟩ := rnC_stmts b (amapRemove m (sym, sp.ctxt))
          (fun q hq => hm q (amapRemove_subset m _ q hq)) hv1 hv2
        refine ⟨fun q hq => amapRemove_subset m _ q (hs1 q hq), ?_⟩
        simp only [occursStmt, hold, hnew, ho1]
  | Stmt.retSome e, m, hm, hv1, hv2 => by
    obtain ⟨hs1, ho1⟩ := rnC_expr e m hm hv1 hv2
    exact ⟨hs1, by simp only [Pv.rnStmt, occursStmt, ho1]⟩
  | Stmt.retNone, m, hm, hv1, hv2 => ⟨fun q hq => hq, rfl⟩
  | Stmt.empty, m, hm, hv1, hv2 => ⟨fun q hq => hq, rfl⟩

theorem rnC_stmts {F : List Idn} {v : Idn} :
    ∀ (ss : StmtList) (m : List (Idn × JsWord)),
    (∀ q ∈ m, q.1 ∈ F ∧ proxyPrefixed q.2 = true) → v ∉ F → proxyPrefixed v.1 = false →
    (∀ q ∈ (Pv.rnStmts m ss).1, q ∈ m) ∧
      occursStmts v (Pv.rnStmts m ss).2 = occursStmts v ss
  | StmtList.nil, m, hm, hv1, hv2 => ⟨fun q hq => hq, rfl⟩
  | StmtList.cons st tl, m, hm, hv1, hv2 => by
    obtain ⟨hs1, ho1⟩ := rnC_stmt st m hm hv1 hv2
    obtain ⟨hs2, ho2⟩ := rnC_stmts tl (Pv.rnStmt m st).1
      (fun q hq => hm q (hs1 q hq)) hv1 hv2
    refine ⟨fun q hq => hs1 q (hs2 q hq), ?_⟩
    simp only [Pv.rnStmts, occursStmts, ho1, ho2]

end

/-- The main pass processes an appended statement list sequentially. -/
theorem mvStmts_append : ∀ (a b : StmtList) (s : Pv.St),
    Pv.mvStmts s (slAppend a b) =
      ((Pv.mvStmts (Pv.mvStmts s a).1 b).1,
        slAppend (Pv.mvStmts s a).2 (Pv.mvStmts (Pv.mvStmts s a).1 b).2)
  | StmtList.nil, b, s => by simp [slAppend, Pv.mvStmts]
  | StmtList.cons h tl, b, s => by
    simp only [slAppend, Pv.mvStmts, mvStmts_append tl b (Pv.mvStmt s h).1]

/-- The rename pass processes an appended statement list
sequentially. -/
theorem rnStmts_append : ∀ (a b : StmtList) (m : List (Idn × JsWord)),
    Pv.rnStmts m (slAppend a b) =
      ((Pv.rnStmts (Pv.rnStmts m a).1 b).1,
        slAppend (Pv.rnStmts m a).2 (Pv.rnStmts (Pv.rnStmts m a).1 b).2)
  | StmtList.nil, b, m => by simp [slAppend, Pv.rnStmts]
  | StmtList.cons h tl, b, m => by
    simp only [slAppend, Pv.rnStmts, rnStmts_append tl b (Pv.rnStmt m h).1]

/-- Processing the proxy declarator `var v = f` under the stated
conditions records the function identifier as the replacement of `v`
and removes the statement. -/
theorem mid_declarator_step {F : List Idn} {H : List (JsWord × Ctxt)} {s1 : Pv.St}
    (vsym fsym : JsWord) (vsp fsp : Span)
    (hok1 : Pv.StOk F H s1)
    (hmemF : (fsym, fsp.ctxt) ∈ F)
    (hcol : ∀ c, amapFind H fsym = Option.some c → ¬ fsp.ctxt < c)
    (h5 : amapFind s1.replacements (vsym, vsp.ctxt) = Option.none)
    (h6 : amapFind s1.replacements (fsym, fsp.ctxt) = Option.none) :
    Pv.mvStmt s1 (Stmt.varDecl (DeclList.cons
        (Declarator.mk (PatName.pid vsym vsp) (OExpr.some (Expr.identE fsym fsp)))
        DeclList.nil)) =
      ({ s1 with replacements :=
          ((vsym, vsp.ctxt), (fsym, fsp)) :: s1.replacements }, Stmt.empty) := by
  obtain ⟨h1, h2, h3, h4⟩ := hok1
  have hname : Pv.mvPat s1 (PatName.pid vsym vsp) = PatName.pid vsym vsp := by
    simp [Pv.mvPat, Pv.mvIdent, h5]
  have hini : Pv.mvOExpr s1 (OExpr.some (Expr.identE fsym fsp)) =
      (s1, OExpr.some (Expr.identE fsym fsp)) := by
    simp [Pv.mvOExpr, Pv.mvExpr, Pv.mvIdent, h6]
  have hstep : Pv.declStep s1 (PatName.pid vsym vsp) (OExpr.some (Expr.identE fsym fsp)) =
      ({ s1 with replacements :=
          ((vsym, vsp.ctxt), (fsym, fsp)) :: s1.replacements },
        Declarator.mk PatName.pInvalid (OExpr.some (Expr.identE fsym fsp))) := by
    simp only [Pv.declStep]
    rw [if_pos (h1 ▸ hmemF)]
    rw [h2]
    cases hfind : amapFind H fsym with
    | some c =>
      dsimp only
      rw [if_neg (hcol c hfind)]
      simp [amapInsert, h2]
    | none =>
      dsimp only
      simp [amapInsert, h2]
  simp only [Pv.mvStmt, Pv.mvDecls, Pv.mvDecl, hname, hini, hstep]

/-- C2 (amended): bindings in the substitution table are applied
during the same traversal that records them, so a binding reaches
exactly the identifiers visited after its declarator.  For every
program `pre ++ [var v = f] ++ post` in which `f` resolves to a
function declaration, no deeper scope uses the symbol of `f`, `v` is
neither a function-declaration identity nor a `proxyFnN` name, and
neither `v` nor `f` has already been given a substitution when the
declarator is reached: the recorded replacement is the function
identifier `f` itself, the declarator is removed (its statement
becomes empty), and no reference to `v` survives anywhere in the part
of the program after the declarator.  References visited before the
declarator are not replaced (see the counterexample). -/
theorem c2_substitution_applied_after_declarator
    (pre post : StmtList) (vsym fsym : JsWord) (vsp fsp : Span)
    (F : List Idn) (H : List (JsWord × Ctxt)) (s1 : Pv.St)
    (prog : Program)
    (hprog : prog = slAppend pre (StmtList.cons (Stmt.varDecl (DeclList.cons
        (Declarator.mk (PatName.pid vsym vsp) (OExpr.some (Expr.identE fsym fsp)))
        DeclList.nil)) post))
    (hF : F = (Pv.fvStmts Pv.FnV.init prog).functions)
    (hH : H = (Pv.fvStmts Pv.FnV.init prog).identifiers)
    (hs1 : s1 = (Pv.mvStmts ⟨F, H, [], 0, []⟩ pre).1)
    (hmemF : (fsym, fsp.ctxt) ∈ F)
    (hcol : ∀ c, amapFind H fsym = Option.some c → ¬ fsp.ctxt < c)
    (hv1 : (vsym, vsp.ctxt) ∉ F)
    (hv2 : proxyPrefixed vsym = false)
    (h5 : amapFind s1.replacements (vsym, vsp.ctxt) = Option.none)
    (h6 : amapFind s1.replacements (fsym, fsp.ctxt) = Option.none) :
    amapFind (Pv.mvStmt s1 (Stmt.varDecl (DeclList.cons
        (Declarator.mk (PatName.pid vsym vsp) (OExpr.some (Expr.identE fsym fsp)))
        DeclList.nil))).1.replacements (vsym, vsp.ctxt) = Option.some (fsym, fsp) ∧
    ∃ A B, Pv.program prog = slAppend A (StmtList.cons Stmt.empty B) ∧
      occursStmts (vsym, vsp.ctxt) B = false := by
  have hok0 : Pv.StOk F H ⟨F, H, [], 0, []⟩ :=
    ⟨rfl, rfl, fun p hp => absurd hp (List.not_mem_nil p),
      fun q hq => absurd hq (List.not_mem_nil q)⟩
  have hok1 : Pv.StOk F H s1 := by
    rw [hs1]
    exact (mvA_stmts pre ⟨F, H, [], 0, []⟩ hok0).1
  have hmid := mid_declarator_step vsym fsym vsp fsp hok1 hmemF hcol h5 h6
  set s2 : Pv.St :=
    { s1 with replacements := ((vsym, vsp.ctxt), (fsym, fsp)) :: s1.replacements } with hs2
  have hfound : amapFind s2.replacements (vsym, vsp.ctxt) = Option.some (fsym, fsp) := by
    simp [hs2, amapFind]
  have hok2 : Pv.StOk F H s2 := by
    refine ⟨hok1.1, hok1.2.1, ?_, hok1.2.2.2⟩
    intro p hp
    rcases List.mem_cons.mp hp with rfl | hp2
    · exact Or.inl hmemF
    · exact hok1.2.2.1 p hp2
  have hsome2 : (amapFind s2.replacements (vsym, vsp.ctxt)).isSome := by
    rw [hfound]
    rfl
  have hpost : occursStmts (vsym, vsp.ctxt) (Pv.mvStmts s2 post).2 = false :=
    mvB_stmts post s2 hok2 hsome2 hv1 hv2
  constructor
  · rw [hmid]
    exact hfound
  · -- decompose the whole program run
    have hmida : Pv.mvStmts s1 (StmtList.cons (Stmt.varDecl (DeclList.cons
        (Declarator.mk (PatName.pid vsym vsp) (OExpr.some (Expr.identE fsym fsp)))
        DeclList.nil)) post) =
        ((Pv.mvStmts s2 post).1, StmtList.cons Stmt.empty (Pv.mvStmts s2 post).2) := by
      simp only [Pv.mvStmts, hmid]
    have hrun : Pv.mvStmts ⟨F, H, [], 0, []⟩ prog =
        ((Pv.mvStmts s2 post).1,
          slAppend (Pv.mvStmts ⟨F, H, [], 0, []⟩ pre).2
            (StmtList.cons Stmt.empty (Pv.mvStmts s2 post).2)) := by
      rw [hprog, mvStmts_append, ← hs1, hmida]
    have hokFinal : Pv.StOk F H (Pv.mvStmts ⟨F, H, [], 0, []⟩ prog).1 :=
      (mvA_stmts prog ⟨F, H, [], 0, []⟩ hok0).1
    have hprogram : Pv.program prog =
        (if (Pv.mvStmts ⟨F, H, [], 0, []⟩ prog).1.fnReplacements.isEmpty then
          (Pv.mvStmts ⟨F, H, [], 0, []⟩ prog).2
        else (Pv.rnStmts (Pv.mvStmts ⟨F, H, [], 0, []⟩ prog).1.fnReplacements
          (Pv.mvStmts ⟨F, H, [], 0, []⟩ prog).2).2) := by
      simp only [Pv.program, ← hF, ← hH]
    by_cases hemp : (Pv.mvStmts ⟨F, H, [], 0, []⟩ prog).1.fnReplacements.isEmpty
    · refine ⟨(Pv.mvStmts ⟨F, H, [], 0, []⟩ pre).2, (Pv.mvStmts s2 post).2, ?_, hpost⟩
      rw [hprogram, if_pos hemp, hrun]
    · set m := (Pv.mvStmts ⟨F, H, [], 0, []⟩ prog).1.fnReplacements with hmdef
      have hMok : ∀ q ∈ m, q.1 ∈ F ∧ proxyPrefixed q.2 = true := hokFinal.2.2.2
      have hrn := rnStmts_append (Pv.mvStmts ⟨F, H, [], 0, []⟩ pre).2
        (StmtList.cons Stmt.empty (Pv.mvStmts s2 post).2) m
      set m2 := (Pv.rnStmts m (Pv.mvStmts ⟨F, H, [], 0, []⟩ pre).2).1 with hm2def
      have hM2sub := (rnC_stmts (F := F) (v := (vsym, vsp.ctxt))
        (Pv.mvStmts ⟨F, H, [], 0, []⟩ pre).2 m hMok hv1 hv2).1
      have hM2ok : ∀ q ∈ m2, q.1 ∈ F ∧ proxyPrefixed q.2 = true :=
        fun q hq => hMok q (hM2sub q hq)
      have hrnmid : Pv.rnStmts m2 (StmtList.cons Stmt.empty (Pv.mvStmts s2 post).2) =
          ((Pv.rnStmts m2 (Pv.mvStmts s2 post).2).1,
            StmtList.cons Stmt.empty (Pv.rnStmts m2 (Pv.mvStmts s2 post).2).2) := by
        simp only [Pv.rnStmts, Pv.rnStmt]
      have hB := (rnC_stmts (F := F) (v := (vsym, vsp.ctxt))
        (Pv.mvStmts s2 post).2 m2 hM2ok hv1 hv2).2
      refine ⟨(Pv.rnStmts m (Pv.mvStmts ⟨F, H, [], 0, []⟩ pre).2).2,
        (Pv.rnStmts m2 (Pv.mvStmts s2 post).2).2, ?_, ?_⟩
      · rw [hprogram, if_neg hemp, hrun]
        dsimp only
        rw [hrn]
        dsimp only
        rw [hrnmid]
      · rw [hB]
        exact hpost

/-- C2 counterexample: in `r(); var r = c; r(); function c() {}` the
substitution for `r` is recorded when the declarator is visited, so
the reference occurring before the declarator keeps the identifier `r`
while the one after becomes `c` — the binding is not applied to every
identifier in the whole program. -/
theorem c2_reference_before_declarator_kept :
    Pv.program proxyBeforeAfterProgram =
      StmtList.cons
        (Stmt.exprStmt (Expr.call (Expr.identE "r" ⟨1, 5⟩) ExprList.nil ⟨10, 0⟩))
        (StmtList.cons Stmt.empty
          (StmtList.cons
            (Stmt.exprStmt (Expr.call (Expr.identE "c" ⟨3, 1⟩) ExprList.nil ⟨11, 0⟩))
            (StmtList.cons (Stmt.fnDecl "c" ⟨4, 1⟩ [] StmtList.nil) StmtList.nil))) ∧
    occursStmts ("r", 5) (Pv.program proxyBeforeAfterProgram) = true := by
  exact ⟨by decide, by decide⟩

/-- Witness for `c2_substitution_applied_after_declarator` on the
concrete program `r(); var r = c; r(); function c() {}`. -/
theorem c2_substitution_applied_after_declarator_witness :
    amapFind (Pv.mvStmt ⟨[("c", 1)], [("c", 1), ("r", 5)], [], 0, []⟩
      (Stmt.varDecl (DeclList.cons
        (Declarator.mk (PatName.pid "r" ⟨2, 5⟩)
          (OExpr.some (Expr.identE "c" ⟨3, 1⟩))) DeclList.nil))).1.replacements
      ("r", 5) = Option.some ("c", ⟨3, 1⟩) ∧
    ∃ A B, Pv.program proxyBeforeAfterProgram =
        slAppend A (StmtList.cons Stmt.empty B) ∧
      occursStmts ("r", 5) B = false :=
  c2_substitution_applied_after_declarator
    (StmtList.cons
      (Stmt.exprStmt (Expr.call (Expr.identE "r" ⟨1, 5⟩) ExprList.nil ⟨10, 0⟩))
      StmtList.nil)
    (StmtList.cons
      (Stmt.exprStmt (Expr.call (Expr.identE "r" ⟨5, 5⟩) ExprList.nil ⟨11, 0⟩))
      (StmtList.cons (Stmt.fnDecl "c" ⟨4, 1⟩ [] StmtList.nil) StmtList.nil))
    "r" "c" ⟨2, 5⟩ ⟨3, 1⟩ [("c", 1)] [("c", 1), ("r", 5)]
    ⟨[("c", 1)], [("c", 1), ("r", 5)], [], 0, []⟩
    proxyBeforeAfterProgram
    (by decide) (by decide) (by decide) (by decide) (by decide)
    (fun c hc => by
      simp [amapFind] at hc
      subst hc
      decide)
    (by decide) (by decide) (by decide) (by decide)
